import Mathlib

/-!
Verification of the concert-calendar aggregation pipeline.

The definitions below are a shallow embedding of the repository's Python
modules, translated function by function:

* `Py` — models of the Python string primitives used by the code
  (`str.lower`, `str.strip`, substring `in`, `str.split`, and the few
  regex substitutions the code performs).  Character classes are modelled
  over ASCII, which covers every string the pipeline manipulates.
* `Cal` — calendar dates `(year, month, day)` with the Gregorian rules,
  mirroring Python `datetime.date`, plus the two `strftime` formats the
  code uses (`%Y-%m-%d` and `%A, %B %-d` upper-cased).
* `Config` — `src/config.py` (venue alias table, `normalize_venue_name`).
* `Scripts` — `scripts/sources/__init__.py` (the `Event` record,
  `VENUE_ALIASES`, `normalize_venue`, keyword lists).
* `Filter` — `scripts/utils/filter.py` (`_is_music_event`).
* `Normalize` — `src/normalize.py` (fuzzy `deduplicate`).
* `DedupKey` — `scripts/utils/dedup.py` (exact-key `deduplicate_events`).
* `Formatter` — `scripts/utils/formatter.py` (`format_events_by_date`).
* `Sources` — the unconfigured-adapter results of
  `src/sources/ticketmaster.py` and `src/sources/google_sheet.py`.
-/

namespace Py

/-- ASCII lower-casing of one character, as `str.lower` acts on ASCII. -/
def charLower (c : Char) : Char :=
  match c with
  | 'A' => 'a' | 'B' => 'b' | 'C' => 'c' | 'D' => 'd' | 'E' => 'e'
  | 'F' => 'f' | 'G' => 'g' | 'H' => 'h' | 'I' => 'i' | 'J' => 'j'
  | 'K' => 'k' | 'L' => 'l' | 'M' => 'm' | 'N' => 'n' | 'O' => 'o'
  | 'P' => 'p' | 'Q' => 'q' | 'R' => 'r' | 'S' => 's' | 'T' => 't'
  | 'U' => 'u' | 'V' => 'v' | 'W' => 'w' | 'X' => 'x' | 'Y' => 'y'
  | 'Z' => 'z' | other => other

/-- Whitespace characters recognised by `str.strip`, `str.split` and `\s`. -/
def isSpace (c : Char) : Bool :=
  c == ' ' || c == '\t' || c == '\n' || c == '\x0d' || c == '\x0b' || c == '\x0c'

/-- Word characters of the regex class `\w` (ASCII). -/
def isWordChar (c : Char) : Bool :=
  (97 ≤ c.toNat && c.toNat ≤ 122) || (65 ≤ c.toNat && c.toNat ≤ 90) ||
  (48 ≤ c.toNat && c.toNat ≤ 57) || c == '_'

def lowerL (l : List Char) : List Char := l.map charLower

def stripStart (l : List Char) : List Char := l.dropWhile isSpace

def stripEnd (l : List Char) : List Char := (l.reverse.dropWhile isSpace).reverse

/-- `str.strip`: drop whitespace from both ends. -/
def stripL (l : List Char) : List Char := stripEnd (stripStart l)

/-- `str.lower` (ASCII). -/
def lower (s : String) : String := ⟨lowerL s.data⟩

/-- `str.strip`. -/
def strip (s : String) : String := ⟨stripL s.data⟩

/-- Does `pat` start the list `l` (`str.startswith` on char lists)? -/
def leadsL : List Char → List Char → Bool
  | [], _ => true
  | _ :: _, [] => false
  | a :: as, b :: bs => a == b && leadsL as bs

/-- Does `pat` occur inside `l` (Python `pat in l`)? -/
def occursL (pat : List Char) : List Char → Bool
  | [] => pat.isEmpty
  | c :: t => leadsL pat (c :: t) || occursL pat t

/-- Python `pat in hay` on strings. -/
def contains (hay pat : String) : Bool := occursL pat.data hay.data

/-- Python `hay.startswith pat` on strings. -/
def startswith (hay pat : String) : Bool := leadsL pat.data hay.data

/-- Python `hay.endswith pat` on strings. -/
def endswith (hay pat : String) : Bool := leadsL pat.data.reverse hay.data.reverse

end Py

namespace Config

/-- The alias-to-canonical-name table `VENUE_ALIAS_MAP` of `src/config.py`,
in the insertion order produced from the `VENUES` registry at import time. -/
def VENUE_ALIAS_MAP : List (String × String) :=
  [ ("hi tone", "Hi Tone"), ("hi-tone", "Hi Tone"),
    ("hi tone café", "Hi Tone"), ("hi tone cafe", "Hi Tone"),
    ("the hi-tone", "Hi Tone"),
    ("minglewood", "Minglewood Hall"), ("minglewood hall", "Minglewood Hall"),
    ("1555 madison", "Minglewood Hall"),
    ("growlers", "Growlers"), ("growlers memphis", "Growlers"),
    ("hernandos", "Hernando's Hideaway"), ("hernando's", "Hernando's Hideaway"),
    ("hernandos hideaway", "Hernando's Hideaway"),
    ("hernando's hideaway", "Hernando's Hideaway"),
    ("crosstown arts", "Crosstown Arts"), ("the green room", "Crosstown Arts"),
    ("green room crosstown", "Crosstown Arts"),
    ("crosstown concourse", "Crosstown Arts"),
    ("lafayettes", "Lafayette's Music Room"),
    ("lafayette's", "Lafayette's Music Room"),
    ("lafayettes music room", "Lafayette's Music Room"),
    ("lafayette's music room", "Lafayette's Music Room"),
    ("levitt shell", "Overton Park Shell"),
    ("overton park shell", "Overton Park Shell"),
    ("the shell", "Overton Park Shell"),
    ("bb kings", "B.B. King's Blues Club"),
    ("b.b. kings", "B.B. King's Blues Club"),
    ("b.b. king's", "B.B. King's Blues Club"),
    ("bb king's blues club", "B.B. King's Blues Club"),
    ("graceland soundstage", "Graceland Soundstage"),
    ("graceland live", "Graceland Soundstage"),
    ("guest house theater", "Graceland Soundstage"),
    ("fedexforum", "FedExForum"), ("fedex forum", "FedExForum"),
    ("germantown performing arts", "Germantown Performing Arts Center"),
    ("germantown performing arts center", "Germantown Performing Arts Center"),
    ("gpac", "Germantown Performing Arts Center"),
    ("bar dkdc", "Bar DKDC"), ("dkdc", "Bar DKDC"),
    ("b-side", "B-Side Memphis"), ("bside", "B-Side Memphis"),
    ("b side", "B-Side Memphis"), ("b-side memphis", "B-Side Memphis") ]

/-- `normalize_venue_name` of `src/config.py`: exact lookup of the
lower-cased, stripped name, then a bidirectional substring match against
the aliases, then fall back to the stripped input. -/
def normalize_venue_name (name : String) : String :=
  let lowerKey := Py.strip (Py.lower name)
  match VENUE_ALIAS_MAP.lookup lowerKey with
  | some canonical => canonical
  | none =>
    match VENUE_ALIAS_MAP.find?
        (fun p => Py.contains lowerKey p.1 || Py.contains p.1 lowerKey) with
    | some p => p.2
    | none => Py.strip name

end Config

namespace Cal

/-- A calendar date, mirroring Python `datetime.date` fields. -/
structure YMD where
  y : Nat
  m : Nat
  d : Nat
deriving DecidableEq, Repr

/-- Gregorian leap-year rule. -/
def leap (y : Nat) : Bool := y % 4 == 0 && (y % 100 != 0 || y % 400 == 0)

def daysInMonth (y m : Nat) : Nat :=
  if m == 2 then (if leap y then 29 else 28)
  else if m == 4 || m == 6 || m == 9 || m == 11 then 30
  else 31

/-- `date + timedelta(days=1)`. -/
def nextDay (t : YMD) : YMD :=
  if t.d < daysInMonth t.y t.m then ⟨t.y, t.m, t.d + 1⟩
  else if t.m < 12 then ⟨t.y, t.m + 1, 1⟩
  else ⟨t.y + 1, 1, 1⟩

/-- Well-formedness invariant maintained by Python `datetime.date`. -/
def wf (t : YMD) : Prop :=
  1 ≤ t.y ∧ t.y ≤ 9999 ∧ 1 ≤ t.m ∧ t.m ≤ 12 ∧ 1 ≤ t.d ∧ t.d ≤ daysInMonth t.y t.m

instance (t : YMD) : Decidable (wf t) := by unfold wf; infer_instance

/-- Chronological (lexicographic) comparison of dates. -/
def ltB (a b : YMD) : Bool :=
  a.y < b.y || (a.y == b.y && (a.m < b.m || (a.m == b.m && a.d < b.d)))

def digitChar (n : Nat) : Char :=
  match n % 10 with
  | 0 => '0' | 1 => '1' | 2 => '2' | 3 => '3' | 4 => '4'
  | 5 => '5' | 6 => '6' | 7 => '7' | 8 => '8' | _ => '9'

/-- `date.isoformat()` / `strftime("%Y-%m-%d")`: zero-padded `YYYY-MM-DD`. -/
def iso (t : YMD) : String :=
  ⟨[digitChar (t.y / 1000), digitChar (t.y / 100), digitChar (t.y / 10),
    digitChar t.y, '-', digitChar (t.m / 10), digitChar t.m, '-',
    digitChar (t.d / 10), digitChar t.d]⟩

/-- Weekday by Zeller's congruence: 0 = Saturday, 1 = Sunday, ... -/
def weekday (t : YMD) : Nat :=
  let mz := if t.m ≤ 2 then t.m + 12 else t.m
  let yz := if t.m ≤ 2 then t.y - 1 else t.y
  (t.d + 13 * (mz + 1) / 5 + yz % 100 + yz % 100 / 4 + yz / 100 / 4 + 5 * (yz / 100)) % 7

def WEEKDAY_NAMES : List String :=
  ["SATURDAY", "SUNDAY", "MONDAY", "TUESDAY", "WEDNESDAY", "THURSDAY", "FRIDAY"]

def MONTH_NAMES : List String :=
  ["JANUARY", "FEBRUARY", "MARCH", "APRIL", "MAY", "JUNE", "JULY",
   "AUGUST", "SEPTEMBER", "OCTOBER", "NOVEMBER", "DECEMBER"]

/-- `current.strftime("%A, %B %-d").upper()`: the formatter's bucket label,
a display string carrying no year. -/
def label (t : YMD) : String :=
  WEEKDAY_NAMES.getD (weekday t) "" ++ ", " ++
    MONTH_NAMES.getD (t.m - 1) "" ++ " " ++ toString t.d

end Cal

namespace Scripts

/-- `Event` of `scripts/sources/__init__.py`. -/
structure Event where
  artist : String
  venue : String
  date : Cal.YMD
  time : Option String := none
  source : String := ""
  url : Option String := none
  rawTitle : Option String := none
deriving DecidableEq, Repr

/-- Truthiness of an `Optional[str]` field (`None` and `""` are falsy). -/
def optTruthy : Option String → Bool
  | none => false
  | some s => s != ""

/-- `VENUE_ALIASES` of `scripts/sources/__init__.py`. -/
def VENUE_ALIASES : List (String × String) :=
  [ ("hi tone", "Hi Tone"), ("hi-tone", "Hi Tone"), ("hi tone cafe", "Hi Tone"),
    ("hi-tone cafe", "Hi Tone"), ("hi-tone café", "Hi Tone"),
    ("minglewood hall", "Minglewood Hall"), ("minglewood", "Minglewood Hall"),
    ("growlers", "Growlers"), ("growlers bar", "Growlers"),
    ("hernando's hideaway", "Hernando's Hideaway"),
    ("hernandos hideaway", "Hernando's Hideaway"),
    ("hernando's hide-a-way", "Hernando's Hideaway"),
    ("crosstown arts", "Crosstown Arts"),
    ("the green room", "Crosstown Arts Green Room"),
    ("crosstown arts green room", "Crosstown Arts Green Room"),
    ("green room at crosstown", "Crosstown Arts Green Room"),
    ("lafayette's", "Lafayette's Music Room"),
    ("lafayette's music room", "Lafayette's Music Room"),
    ("lafayettes", "Lafayette's Music Room"),
    ("lafayettes music room", "Lafayette's Music Room"),
    ("overton park shell", "Overton Park Shell"),
    ("the shell", "Overton Park Shell"),
    ("levitt shell", "Overton Park Shell"),
    ("bb king's", "B.B. King's Blues Club"),
    ("b.b. king's", "B.B. King's Blues Club"),
    ("bb kings", "B.B. King's Blues Club"),
    ("b.b. king's blues club", "B.B. King's Blues Club"),
    ("graceland soundstage", "Graceland Soundstage"),
    ("graceland live", "Graceland Soundstage"),
    ("fedexforum", "FedExForum"), ("fedex forum", "FedExForum"),
    ("bar dkdc", "Bar DKDC"), ("dkdc", "Bar DKDC"),
    ("b-side", "B-Side Memphis"), ("b-side memphis", "B-Side Memphis"),
    ("the orpheum", "Orpheum Theatre"), ("orpheum", "Orpheum Theatre"),
    ("orpheum theatre", "Orpheum Theatre"),
    ("railgarten", "Railgarten"), ("rail garten", "Railgarten"),
    ("young avenue deli", "Young Avenue Deli"),
    ("young ave deli", "Young Avenue Deli"),
    ("the warehouse", "The Warehouse"),
    ("liberty bowl", "Liberty Bowl Memorial Stadium"),
    ("liberty bowl memorial stadium", "Liberty Bowl Memorial Stadium"),
    ("midtown crossing grill", "Midtown Crossing Grill"),
    ("tin roof", "Tin Roof Memphis"), ("tin roof memphis", "Tin Roof Memphis") ]

/-- `normalize_venue` of `scripts/sources/__init__.py`: empty input gets the
placeholder, otherwise exact lookup of the stripped lower-cased name with the
stripped input as fallback. -/
def normalize_venue (name : String) : String :=
  if name = "" then "Unknown Venue"
  else (VENUE_ALIASES.lookup (Py.lower (Py.strip name))).getD (Py.strip name)

/-- `MUSIC_KEYWORDS` of `scripts/sources/__init__.py`. -/
def MUSIC_KEYWORDS : List String :=
  [ "concert", "live music", "band", "dj", "dance night", "electronic",
    "hip hop", "hip-hop", "rap", "r&b", "soul", "blues", "jazz", "rock",
    "metal", "punk", "folk", "country", "gospel", "singer", "songwriter",
    "songwriter", "open mic", "karaoke", "acoustic", "tribute",
    "album release", "record release", "listening party", "music festival",
    "rave", "house music", "techno", "funk", "reggae", "ska",
    "orchestra", "symphony", "opera", "chamber", "classical",
    "tour", "world tour", "residency", "vinyl", "beat", "producer",
    "mc ", "emcee", "feat.", "ft.", "w/", "with special guest" ]

/-- `NON_MUSIC_KEYWORDS` of `scripts/sources/__init__.py`. -/
def NON_MUSIC_KEYWORDS : List String :=
  [ "comedy", "stand-up", "standup", "stand up", "comedian",
    "play", "theatre", "theater", "musical theatre", "broadway",
    "art opening", "art show", "gallery", "exhibition", "exhibit",
    "poetry reading", "book signing", "book reading", "author",
    "trivia", "bingo", "game night", "pub quiz",
    "brunch", "food", "tasting", "wine tasting", "beer tasting",
    "yoga", "fitness", "run club", "5k", "marathon",
    "workshop", "class", "seminar", "lecture", "conference",
    "fundraiser gala", "auction", "networking",
    "drag brunch", "drag show",
    "movie", "film screening", "documentary" ]

end Scripts

namespace Filter

/-- `MUSIC_ONLY_VENUES` of `scripts/utils/filter.py`. -/
def MUSIC_ONLY_VENUES : List String :=
  [ "Hi Tone", "Minglewood Hall", "Growlers", "Hernando's Hideaway",
    "Lafayette's Music Room", "B.B. King's Blues Club", "Bar DKDC",
    "B-Side Memphis", "Tin Roof Memphis", "Graceland Soundstage",
    "Young Avenue Deli" ]

/-- `MIXED_VENUES` of `scripts/utils/filter.py`. -/
def MIXED_VENUES : List String :=
  [ "Crosstown Arts", "Crosstown Arts Green Room", "Overton Park Shell",
    "FedExForum", "Orpheum Theatre", "Railgarten" ]

/-- The classification text: `lower(artist) + " " + lower(raw_title or "")`. -/
def combined (e : Scripts.Event) : String :=
  Py.lower e.artist ++ " " ++ Py.lower (e.rawTitle.getD "")

/-- `_is_music_event` of `scripts/utils/filter.py`, rule for rule.  The
keyword loop of the source returns `False` exactly when some non-music
keyword occurs and no music keyword does. -/
def is_music_event (e : Scripts.Event) : Bool :=
  if e.source == "Google Sheets" || e.source == "Manual CSV" then true
  else if MUSIC_ONLY_VENUES.contains e.venue then true
  else if Scripts.NON_MUSIC_KEYWORDS.any (fun kw => Py.contains (combined e) kw) &&
      !(Scripts.MUSIC_KEYWORDS.any (fun kw => Py.contains (combined e) kw)) then false
  else if e.source == "Bandsintown" || e.source == "Ticketmaster" then true
  else if e.source == "DICE" then true
  else if Scripts.MUSIC_KEYWORDS.any (fun kw => Py.contains (combined e) kw) then true
  else if MUSIC_ONLY_VENUES.contains e.venue || MIXED_VENUES.contains e.venue then true
  else true

end Filter

namespace Py

/-- Removal of every `[^\w\s]` character (the punctuation-stripping
`re.sub` in both normalizers). -/
def removePunct (l : List Char) : List Char :=
  l.filter (fun c => isWordChar c || isSpace c)

/-- Helper for `collapseWs`: `inRun` records whether the previous character
was whitespace (in which case further whitespace is dropped). -/
def collapseGo (inRun : Bool) : List Char → List Char
  | [] => []
  | c :: t =>
    if isSpace c then
      if inRun then collapseGo true t else ' ' :: collapseGo true t
    else c :: collapseGo false t

/-- Replacement of every whitespace run by a single space
(`re.sub(r"\s+", " ", ...)`). -/
def collapseWs (l : List Char) : List Char := collapseGo false l

/-- Helper for `splitWs`: `word` holds the reversed current word. -/
def splitGo (word : List Char) : List Char → List (List Char)
  | [] => if word.isEmpty then [] else [word.reverse]
  | c :: t =>
    if isSpace c then
      if word.isEmpty then splitGo [] t else word.reverse :: splitGo [] t
    else splitGo (c :: word) t

/-- `str.split()`: whitespace-separated words, no empties. -/
def splitWs (l : List Char) : List (List Char) := splitGo [] l

end Py

namespace Cmp

def natCmp (a b : Nat) : Ordering :=
  if a < b then .lt else if b < a then .gt else .eq

def chCmp (a b : Char) : Ordering := natCmp a.toNat b.toNat

/-- Code-point lexicographic comparison, as Python compares strings. -/
def chListCmp : List Char → List Char → Ordering
  | [], [] => .eq
  | [], _ :: _ => .lt
  | _ :: _, [] => .gt
  | a :: as, b :: bs => (chCmp a b).then (chListCmp as bs)

end Cmp

namespace Dict

/-- `dict.setdefault(k, []).append(v)` as used when grouping (a fresh key
goes to the back; an existing key has the value appended in place). -/
def appendEntry (k : String) (v : α) : List (String × List α) → List (String × List α)
  | [] => [(k, [v])]
  | (k', vs) :: t =>
    if k' = k then (k', vs ++ [v]) :: t else (k', vs) :: appendEntry k v t

/-- Grouping of a list into an insertion-ordered association list. -/
def groupBy (key : α → String) (l : List α) : List (String × List α) :=
  l.foldl (fun acc e => appendEntry (key e) e acc) []

/-- `d[k] = v` on a Python dict: overwrite in place, or append a new key. -/
def setKey (k : String) (v : β) : List (String × β) → List (String × β)
  | [] => [(k, v)]
  | (k', v') :: t =>
    if k' = k then (k, v) :: t else (k', v') :: setKey k v t

/-- `d.get(k, fallback)`. -/
def getD (d : List (String × β)) (k : String) (fallback : β) : β :=
  (d.lookup k).getD fallback

end Dict

namespace Models

/-- `Event` of `src/models.py`. -/
structure Event where
  artist : String
  venue : String
  date : Cal.YMD
  time : Option String := none
  source : String := ""
  url : Option String := none
deriving DecidableEq, Repr

end Models

namespace Normalize

/-- Removal of a leading `the` plus following whitespace
(`re.sub(r'^the\s+', '', text)`). -/
def cutThe : List Char → List Char
  | 't' :: 'h' :: 'e' :: c :: t =>
    if Py.isSpace c then (c :: t).dropWhile Py.isSpace
    else 't' :: 'h' :: 'e' :: c :: t
  | l => l

/-- The words of the trailing-noise alternation
`(live|concert|tour|show|presents?|featuring|feat\.?|ft\.?)`. -/
def SUFFIX_WORDS : List (List Char) :=
  ["live", "concert", "tour", "show", "presents", "present",
   "featuring", "feat.", "feat", "ft.", "ft"].map String.data

/-- Does the whole tail match `\s*(...)\s*$` for the alternation above? -/
def sufMatch (t : List Char) : Bool :=
  let u := t.dropWhile Py.isSpace
  SUFFIX_WORDS.any (fun a => Py.leadsL a u && (u.drop a.length).all Py.isSpace)

/-- `re.sub(r'\s*(live|...)\s*$', '', text)`: delete from the leftmost
position whose tail lies in the anchored suffix language. -/
def cutSuffix : List Char → List Char
  | [] => []
  | c :: t => if sufMatch (c :: t) then [] else c :: cutSuffix t

/-- `_normalize` of `src/normalize.py`: lower+strip, drop a leading "the ",
drop one trailing noise word, drop punctuation, collapse whitespace, strip. -/
def normalize (s : String) : String :=
  ⟨Py.stripL (Py.collapseWs (Py.removePunct (cutSuffix (cutThe
    (Py.stripL (Py.lowerL s.data))))))⟩

/-- `_artists_match` of `src/normalize.py`: equality, containment either
way, or word-set Jaccard similarity above `0.6` (here as `5·|∩| > 3·|∪|`,
which is exact for the word counts involved). -/
def artists_match (a b : String) : Bool :=
  let na := normalize a
  let nb := normalize b
  if na == nb then true
  else if Py.contains nb na || Py.contains na nb then true
  else
    let wordsA := (Py.splitWs na.data).dedup
    let wordsB := (Py.splitWs nb.data).dedup
    if wordsA.isEmpty || wordsB.isEmpty then false
    else
      let inter := (wordsA.filter (fun w => wordsB.contains w)).length
      let union := wordsA.length + wordsB.length - inter
      decide (3 * union < 5 * inter)

/-- `_detail_score` of `src/normalize.py`. -/
def detail_score (e : Models.Event) : Nat :=
  (if Scripts.optTruthy e.time then 2 else 0) +
  (if Scripts.optTruthy e.url then 1 else 0) +
  (if 20 < e.artist.length then 1 else 0) +
  (if (["Ticketmaster", "Venue:"] : List String).any
      (fun p => Py.contains e.source p) then 1 else 0)

/-- `_pick_best` of `src/normalize.py`: the higher detail score wins, the
first argument (the earlier event) on a tie. -/
def pick_best (a b : Models.Event) : Models.Event :=
  if detail_score b ≤ detail_score a then a else b

/-- The `(date, normalized venue)` grouping key of `deduplicate`. -/
def group_key (e : Models.Event) : String :=
  Cal.iso e.date ++ "|" ++ normalize e.venue

/-- One step of the in-group clustering loop: merge into the first cluster
whose representative's artist matches, else start a new cluster. -/
def updateSeen (e : Models.Event) : List Models.Event → List Models.Event
  | [] => [e]
  | r :: rs =>
    if artists_match e.artist r.artist then pick_best r e :: rs
    else r :: updateSeen e rs

/-- The body of `deduplicate`'s per-group loop (a single-event group is
passed through unchanged). -/
def clusterGroup (es : List Models.Event) : List Models.Event :=
  match es with
  | [e] => [e]
  | _ => es.foldl (fun seen e => updateSeen e seen) []

/-- The final `deduped.sort(key=e.sort_key)` comparison:
`(date, venue.lower(), artist.lower())` lexicographically. -/
def eventCmp (a b : Models.Event) : Ordering :=
  (Cmp.natCmp a.date.y b.date.y).then ((Cmp.natCmp a.date.m b.date.m).then
    ((Cmp.natCmp a.date.d b.date.d).then
      ((Cmp.chListCmp (Py.lowerL a.venue.data) (Py.lowerL b.venue.data)).then
        (Cmp.chListCmp (Py.lowerL a.artist.data) (Py.lowerL b.artist.data)))))

def eventLe (a b : Models.Event) : Bool :=
  match eventCmp a b with
  | .gt => false
  | _ => true

/-- `deduplicate` of `src/normalize.py`. -/
def deduplicate (events : List Models.Event) : List Models.Event :=
  if events.isEmpty then []
  else
    let groups := Dict.groupBy group_key events
    let deduped := (groups.map (fun g => clusterGroup g.2)).flatten
    deduped.mergeSort eventLe

end Normalize

namespace DedupKey

/-- `SOURCE_PRIORITY` of `scripts/utils/dedup.py`. -/
def SOURCE_PRIORITY : List (String × Nat) :=
  [("Google Sheets", 10), ("Manual CSV", 10), ("Venue:", 9),
   ("Memphis Flyer", 7), ("DICE", 6), ("Bandsintown", 5),
   ("Ticketmaster", 5), ("Eventbrite", 4)]

/-- `_normalize_for_dedup` of `scripts/utils/dedup.py`. -/
def normalize_for_dedup (s : String) : String :=
  if s == "" then ""
  else
    let l0 := Py.stripL (Py.lowerL s.data)
    let l1 := (["the ", "a ", "an ", "dj "].map String.data).foldl
      (fun cur p => if Py.leadsL p cur then cur.drop p.length else cur) l0
    let l2 := Py.stripL (Py.collapseWs (Py.removePunct l1))
    let l3 := ([" band", " trio", " quartet", " quintet", " ensemble",
        " orchestra"].map String.data).foldl
      (fun cur sfx =>
        if Py.leadsL sfx.reverse cur.reverse then
          Py.stripL (cur.take (cur.length - sfx.length))
        else cur) l2
    ⟨l3⟩

/-- `_make_dedup_key` of `scripts/utils/dedup.py`. -/
def make_dedup_key (e : Scripts.Event) : String :=
  Cal.iso e.date ++ "|" ++ normalize_for_dedup e.artist ++ "|" ++
    normalize_for_dedup e.venue

/-- `_score_event` of `scripts/utils/dedup.py`. -/
def score_event (e : Scripts.Event) : Nat :=
  (((SOURCE_PRIORITY.find? (fun p => Py.startswith e.source p.1)).map
    Prod.snd).getD 0) +
  (if Scripts.optTruthy e.time then 3 else 0) +
  (if Scripts.optTruthy e.url then 2 else 0) +
  (if e.venue != "" && !(Py.contains (Py.lower e.venue) "see ") then 2 else 0)

/-- The final sort of `deduplicate_events`: key `(date, artist.lower())`. -/
def keyCmp (a b : Scripts.Event) : Ordering :=
  (Cmp.natCmp a.date.y b.date.y).then ((Cmp.natCmp a.date.m b.date.m).then
    ((Cmp.natCmp a.date.d b.date.d).then
      (Cmp.chListCmp (Py.lowerL a.artist.data) (Py.lowerL b.artist.data))))

def keyLe (a b : Scripts.Event) : Bool :=
  match keyCmp a b with
  | .gt => false
  | _ => true

/-- `deduplicate_events` of `scripts/utils/dedup.py`: exact dedup keys, the
strictly higher score replaces, then a deterministic sort. -/
def deduplicate_events (events : List Scripts.Event) : List Scripts.Event :=
  let seen := events.foldl
    (fun seen e =>
      let k := make_dedup_key e
      match seen.lookup k with
      | some existing =>
        if score_event existing < score_event e then Dict.setKey k e seen
        else seen
      | none => seen ++ [(k, e)])
    ([] : List (String × Scripts.Event))
  (seen.map Prod.snd).mergeSort keyLe

end DedupKey

namespace Cal

/-- The formatter's `while current.date() < end_date.date()` loop, with
enough fuel for every real calendar window ending by year `stop.y`. -/
def dayLoop : Nat → YMD → YMD → List YMD
  | 0, _, _ => []
  | fuel + 1, cur, stop =>
    if ltB cur stop then cur :: dayLoop fuel (nextDay cur) stop else []

/-- The calendar days of `[startDate, stop)` in order. -/
def windowDays (startDate stop : YMD) : List YMD :=
  dayLoop (372 * (stop.y + 2)) startDate stop

end Cal

namespace Formatter

/-- The in-bucket sort key of `format_events_by_date`:
`(0 if time else 1, time or "", artist.lower())`. -/
def bucketCmp (a b : Scripts.Event) : Ordering :=
  (Cmp.natCmp (if Scripts.optTruthy a.time then 0 else 1)
      (if Scripts.optTruthy b.time then 0 else 1)).then
    ((Cmp.chListCmp (a.time.getD "").data (b.time.getD "").data).then
      (Cmp.chListCmp (Py.lowerL a.artist.data) (Py.lowerL b.artist.data)))

def bucketLe (a b : Scripts.Event) : Bool :=
  match bucketCmp a b with
  | .gt => false
  | _ => true

/-- The value stored for one window day: `by_date.get(date_key, [])` after
the in-place per-key sort. -/
def dayBucket (events : List Scripts.Event) (day : Cal.YMD) : List Scripts.Event :=
  Dict.getD ((Dict.groupBy (fun e => Cal.iso e.date) events).map
    (fun p => (p.1, p.2.mergeSort bucketLe))) (Cal.iso day) []

/-- `format_events_by_date` of `scripts/utils/formatter.py`: group by ISO
day, sort each bucket, then emit one dict entry per window day keyed by the
display label (a later day with the same label overwrites in place). -/
def format_events_by_date (events : List Scripts.Event)
    (startDate stop : Cal.YMD) : List (String × List Scripts.Event) :=
  (Cal.windowDays startDate stop).foldl
    (fun res day => Dict.setKey (Cal.label day) (dayBucket events day) res)
    []

end Formatter

namespace Sources

/-- `SourceResult` of `src/models.py` (the run timestamp, a wall-clock side
effect, is not modelled). -/
structure SourceResult where
  source_name : String
  events : List Models.Event := []
  success : Bool := true
  error_message : Option String := none
  events_found : Nat := 0
  events_filtered : Nat := 0
deriving DecidableEq, Repr

/-- The value `fetch()` of `src/sources/ticketmaster.py` returns when
`TICKETMASTER_API_KEY` is empty (its early-return guard, lines 23–28). -/
def ticketmaster_fetch_unconfigured : SourceResult :=
  { source_name := "Ticketmaster"
    success := false
    error_message := some "No API key configured (set TICKETMASTER_API_KEY)" }

/-- The value `fetch()` of `src/sources/google_sheet.py` returns when no
sheet URL is configured and no local CSV exists (lines 52–55). -/
def google_sheet_fetch_unconfigured : SourceResult :=
  { source_name := "Manual (Google Sheet)"
    success := true
    error_message := some "No Google Sheet URL or local CSV found" }

end Sources

namespace Dict

/-- The value left at key `k` after a sequence of `d[kf x] = vf x`
assignments, starting from `acc`: the last write wins. -/
def lastWrite (k : String) (kf : α → String) (vf : α → β) :
    Option β → List α → Option β
  | acc, [] => acc
  | acc, x :: t => lastWrite k kf vf (if kf x == k then some (vf x) else acc) t

end Dict

namespace Cmp

/-- Lexicographic combination of two comparators along a pair. -/
def pairCmp (f : α → α → Ordering) (g : β → β → Ordering)
    (x y : α × β) : Ordering :=
  (f x.1 y.1).then (g x.2 y.2)

/-- The non-strict order induced by a comparator. -/
def cmpLe (f : α → α → Ordering) (x y : α) : Bool :=
  match f x y with
  | .gt => false
  | _ => true

end Cmp

namespace Normalize

/-- The sort key of `Event.sort_key`, as a tuple. -/
def key5 (e : Models.Event) : Nat × Nat × Nat × List Char × List Char :=
  (e.date.y, e.date.m, e.date.d, Py.lowerL e.venue.data, Py.lowerL e.artist.data)

/-- The tuple comparator underlying `eventCmp`. -/
def cmp5 : Nat × Nat × Nat × List Char × List Char →
    Nat × Nat × Nat × List Char × List Char → Ordering :=
  Cmp.pairCmp Cmp.natCmp (Cmp.pairCmp Cmp.natCmp (Cmp.pairCmp Cmp.natCmp
    (Cmp.pairCmp Cmp.chListCmp Cmp.chListCmp)))

end Normalize

namespace Inputs

/-- Scenario A, first record (Bandsintown). -/
def luceroBit : Models.Event :=
  ⟨"Lucero", "Minglewood Hall", ⟨2026, 2, 15⟩, none, "Bandsintown", none⟩

/-- Scenario A, second record (venue calendar, with time and URL). -/
def luceroVenue : Models.Event :=
  ⟨"Lucero w/ Special Guests", "minglewood hall", ⟨2026, 2, 15⟩,
    some "8 PM", "Venue: Minglewood Hall", some "http://x"⟩

/-- Scenario A, first record, for the exact-key dedup variant. -/
def luceroBitS : Scripts.Event :=
  ⟨"Lucero", "Minglewood Hall", ⟨2026, 2, 15⟩, none, "Bandsintown", none, none⟩

/-- Scenario A, second record, for the exact-key dedup variant. -/
def luceroVenueS : Scripts.Event :=
  ⟨"Lucero w/ Special Guests", "minglewood hall", ⟨2026, 2, 15⟩,
    some "8 PM", "Venue: Minglewood Hall", some "http://x", none⟩

/-- Dedup counterexample: a bare event. -/
def alphaBeta : Models.Event := ⟨"alpha beta", "v", ⟨2026, 2, 15⟩, none, "", none⟩

/-- Dedup counterexample: an unrelated artist, same date and venue. -/
def gammaEv : Models.Event := ⟨"gamma", "v", ⟨2026, 2, 15⟩, none, "", none⟩

/-- Dedup counterexample: matches both of the others, carries a time. -/
def alphaBetaGamma : Models.Event :=
  ⟨"alpha beta gamma", "v", ⟨2026, 2, 15⟩, some "8 PM", "", none⟩

/-- Scenario B: trivia night with a DJ. -/
def triviaDj : Scripts.Event :=
  ⟨"Trivia Night with DJ Spinning Oldies", "Somewhere", ⟨2026, 2, 15⟩,
    none, "Memphis Flyer", none, none⟩

/-- Scenario B: stand-up comedy. -/
def standUp : Scripts.Event :=
  ⟨"Stand-Up Comedy Showcase", "Somewhere", ⟨2026, 2, 15⟩,
    none, "Memphis Flyer", none, none⟩

/-- An event matching no classifier rule. -/
def unclassifiable : Scripts.Event :=
  ⟨"Zzz", "Nowhere Bar", ⟨2026, 2, 15⟩, none, "Memphis Flyer", none, none⟩

/-- An event inside the small formatter window. -/
def febShow : Scripts.Event :=
  ⟨"Aardvark", "Growlers", ⟨2026, 2, 12⟩, some "7 PM", "DICE", none, none⟩

/-- An event outside the small formatter window. -/
def marchShow : Scripts.Event :=
  ⟨"Bbb", "Growlers", ⟨2026, 3, 5⟩, none, "DICE", none, none⟩

/-- The event lost to a bucket-label collision (its day and the same
weekday-month-day five years later both fall in the window). -/
def collisionShow : Scripts.Event :=
  ⟨"Ccc", "Growlers", ⟨2027, 3, 2⟩, none, "DICE", none, none⟩

end Inputs

namespace Py

theorem dropWhile_dropWhile (p : α → Bool) (l : List α) :
    (l.dropWhile p).dropWhile p = l.dropWhile p := by
  induction l with
  | nil => rfl
  | cons c t ih =>
    by_cases h : p c
    · simp [List.dropWhile_cons, h, ih]
    · simp [List.dropWhile_cons, h]

theorem head_not_of_dropWhile (p : α → Bool) (l : List α) {c : α} {t : List α}
    (h : l.dropWhile p = c :: t) : p c = false := by
  induction l with
  | nil => simp at h
  | cons a t' ih =>
    rw [List.dropWhile_cons] at h
    by_cases ha : p a
    · exact ih (by simpa [ha] using h)
    · obtain ⟨rfl, -⟩ := List.cons.inj (by simpa [ha] using h)
      simpa using ha

theorem stripStart_stripStart (l : List Char) :
    stripStart (stripStart l) = stripStart l :=
  dropWhile_dropWhile isSpace l

theorem stripEnd_stripEnd (l : List Char) :
    stripEnd (stripEnd l) = stripEnd l := by
  unfold stripEnd
  rw [List.reverse_reverse, dropWhile_dropWhile]

theorem stripStart_stripEnd_stripStart (l : List Char) :
    stripStart (stripEnd (stripStart l)) = stripEnd (stripStart l) := by
  cases h : stripEnd (stripStart l) with
  | nil => rfl
  | cons c t =>
    have hsplit : stripEnd (stripStart l) ++
        ((stripStart l).reverse.takeWhile isSpace).reverse = stripStart l := by
      unfold stripEnd
      rw [← List.reverse_append, List.takeWhile_append_dropWhile, List.reverse_reverse]
    rw [h] at hsplit
    have hc : isSpace c = false :=
      head_not_of_dropWhile isSpace l (by simpa using hsplit.symm)
    show List.dropWhile isSpace (c :: t) = c :: t
    rw [List.dropWhile_cons, hc]
    simp

theorem stripL_stripL (l : List Char) : stripL (stripL l) = stripL l := by
  unfold stripL
  rw [stripStart_stripEnd_stripStart, stripEnd_stripEnd]

theorem isSpace_charLower (c : Char) : isSpace (charLower c) = isSpace c := by
  unfold charLower
  split <;> rfl

theorem isSpace_comp_charLower : (isSpace ∘ charLower) = isSpace :=
  funext isSpace_charLower

theorem stripStart_lowerL (l : List Char) :
    stripStart (lowerL l) = lowerL (stripStart l) := by
  unfold stripStart lowerL
  rw [List.dropWhile_map, isSpace_comp_charLower]

theorem stripEnd_lowerL (l : List Char) :
    stripEnd (lowerL l) = lowerL (stripEnd l) := by
  unfold stripEnd lowerL
  rw [← List.map_reverse, List.dropWhile_map, isSpace_comp_charLower, List.map_reverse]

theorem stripL_lowerL (l : List Char) :
    stripL (lowerL l) = lowerL (stripL l) := by
  unfold stripL
  rw [stripStart_lowerL, stripEnd_lowerL]

end Py

namespace Config

theorem lookup_mem {l : List (String × String)} {k v : String}
    (h : l.lookup k = some v) : (k, v) ∈ l := by
  induction l with
  | nil => simp [List.lookup] at h
  | cons p t ih =>
    rw [List.lookup] at h
    split at h
    · next heq =>
      have hk : k = p.1 := by simpa using heq
      have hv : p.2 = v := by injection h
      have hp : (k, v) = p := by rw [hk, ← hv]
      rw [hp]
      exact List.mem_cons_self _ _
    · exact List.mem_cons_of_mem _ (ih h)

theorem alias_canonical_fixed :
    ∀ p ∈ VENUE_ALIAS_MAP, normalize_venue_name p.2 = p.2 := by decide

theorem strip_lower_strip (x : String) :
    Py.strip (Py.lower (Py.strip x)) = Py.strip (Py.lower x) := by
  show (⟨Py.stripL (Py.lowerL (Py.stripL x.data))⟩ : String)
      = ⟨Py.stripL (Py.lowerL x.data)⟩
  rw [Py.stripL_lowerL, Py.stripL_stripL, Py.stripL_lowerL]

theorem strip_strip (x : String) : Py.strip (Py.strip x) = Py.strip x := by
  show (⟨Py.stripL (Py.stripL x.data)⟩ : String) = ⟨Py.stripL x.data⟩
  rw [Py.stripL_stripL]

/-- C4: `normalize_venue_name` of `src/config.py` is idempotent: a second
normalization pass leaves any already-normalized venue string unchanged,
whether the first pass hit the exact-alias lookup, the bidirectional
substring match, or the trimmed-input fallback. -/
theorem normalize_venue_name_idempotent (x : String) :
    normalize_venue_name (normalize_venue_name x) = normalize_venue_name x := by
  cases h1 : VENUE_ALIAS_MAP.lookup (Py.strip (Py.lower x)) with
  | some canonical =>
    have hx : normalize_venue_name x = canonical := by
      simp only [normalize_venue_name, h1]
    rw [hx]
    exact alias_canonical_fixed _ (lookup_mem h1)
  | none =>
    cases h2 : VENUE_ALIAS_MAP.find?
        (fun p => Py.contains (Py.strip (Py.lower x)) p.1 ||
          Py.contains p.1 (Py.strip (Py.lower x))) with
    | some p =>
      have hx : normalize_venue_name x = p.2 := by
        simp only [normalize_venue_name, h1, h2]
      rw [hx]
      exact alias_canonical_fixed _ (List.mem_of_find?_eq_some h2)
    | none =>
      have hx : normalize_venue_name x = Py.strip x := by
        simp only [normalize_venue_name, h1, h2]
      rw [hx]
      have hkey := strip_lower_strip x
      simp only [normalize_venue_name, hkey, h1, h2]
      exact strip_strip x

end Config

/-- C5 counterexample: `normalize_venue_name` (config variant) does not map
the empty string to `"Unknown Venue"` — the empty string is a substring of
every alias, so the partial-match loop returns the first alias's canonical
name — and `normalize_venue` (scripts variant) maps the whitespace-only
string `" "` to the empty string, so venues are not always non-empty after
normalization. -/
theorem venue_normalization_empty_claim_false :
    ¬ (Config.normalize_venue_name "" = "Unknown Venue") ∧
      Scripts.normalize_venue " " = "" := by decide

/-- C5 amended: only the scripts-variant `normalize_venue` returns the
`"Unknown Venue"` placeholder on the empty string; the config-variant
`normalize_venue_name` returns `"Hi Tone"` for it, and `normalize_venue`
returns the empty string for a whitespace-only input. -/
theorem venue_normalization_empty_string :
    Scripts.normalize_venue "" = "Unknown Venue" ∧
      Config.normalize_venue_name "" = "Hi Tone" ∧
      Scripts.normalize_venue " " = "" := by decide

namespace Filter

/-- C6: an event that matches none of classifier rules 1–6 — untrusted,
non-music-scoped source, venue in neither venue set, and no music or
non-music keyword in its text — falls through to the default rule and is
accepted. -/
theorem classifier_default_accept (e : Scripts.Event)
    (h1 : e.source ≠ "Google Sheets") (h2 : e.source ≠ "Manual CSV")
    (h3 : e.source ≠ "Bandsintown") (h4 : e.source ≠ "Ticketmaster")
    (h5 : e.source ≠ "DICE")
    (h6 : e.venue ∉ MUSIC_ONLY_VENUES) (h7 : e.venue ∉ MIXED_VENUES)
    (h8 : ∀ kw ∈ Scripts.MUSIC_KEYWORDS, Py.contains (combined e) kw = false)
    (h9 : ∀ kw ∈ Scripts.NON_MUSIC_KEYWORDS, Py.contains (combined e) kw = false) :
    is_music_event e = true := by
  have cn : Scripts.NON_MUSIC_KEYWORDS.any
      (fun kw => Py.contains (combined e) kw) = false := by
    rw [List.any_eq_false]
    intro kw hkw
    simp [h9 kw hkw]
  have hrule3 : (Scripts.NON_MUSIC_KEYWORDS.any (fun kw => Py.contains (combined e) kw) &&
      !(Scripts.MUSIC_KEYWORDS.any (fun kw => Py.contains (combined e) kw))) = false := by
    rw [cn, Bool.false_and]
  simp [is_music_event, hrule3]

/-- Witness for C6 at a concrete unclassifiable event. -/
theorem classifier_default_accept_witness :
    is_music_event Inputs.unclassifiable = true :=
  classifier_default_accept _ (by decide) (by decide) (by decide) (by decide)
    (by decide) (by decide) (by decide) (by decide) (by decide)

/-- C8, Scenario B: the trivia-with-DJ event is kept (the non-music keyword
co-occurs with the music keyword "dj"), the stand-up comedy event is
rejected (non-music keyword, no music keyword), both from an untrusted
non-music-scoped source at an unregistered venue. -/
theorem scenarioB_classifier :
    is_music_event Inputs.triviaDj = true ∧
      is_music_event Inputs.standUp = false := by decide

end Filter

/-- C7 counterexample: the Ticketmaster adapter reports a missing API key as
a failed `SourceResult`, not as a successful empty one. -/
theorem ticketmaster_unconfigured_failure :
    ¬ (Sources.ticketmaster_fetch_unconfigured.success = true) := by decide

/-- C7 amended: with no configuration, the Google-Sheet adapter returns
`success = true`, no events and an informative message, while the
Ticketmaster adapter returns `success = false` with an error message; the
missing-credential outcome is uniform-success only for the sheet source. -/
theorem unconfigured_source_results :
    Sources.google_sheet_fetch_unconfigured.success = true ∧
      Sources.google_sheet_fetch_unconfigured.events = [] ∧
      Sources.google_sheet_fetch_unconfigured.error_message =
        some "No Google Sheet URL or local CSV found" ∧
      Sources.ticketmaster_fetch_unconfigured.success = false ∧
      Sources.ticketmaster_fetch_unconfigured.events = [] ∧
      Sources.ticketmaster_fetch_unconfigured.error_message =
        some "No API key configured (set TICKETMASTER_API_KEY)" := by decide

/-- C1 counterexample: on the Scenario A input the fuzzy `deduplicate`
keeps the venue-sourced record verbatim, so the surviving venue string is
`"minglewood hall"`, not the canonical `"Minglewood Hall"` the scenario
promises. -/
theorem scenarioA_claim_false :
    (Normalize.deduplicate [Inputs.luceroBit, Inputs.luceroVenue]).map
      Models.Event.venue ≠ ["Minglewood Hall"] := by
  have h1 : Normalize.deduplicate [Inputs.luceroBit, Inputs.luceroVenue] =
      List.mergeSort [Inputs.luceroVenue] Normalize.eventLe := rfl
  rw [h1, List.mergeSort_of_sorted (by simp)]
  decide

/-- C1 amended: `deduplicate` collapses the Scenario A pair to exactly the
venue-sourced record — one event carrying time `"8 PM"`, url `"http://x"`
and the venue spelled `"minglewood hall"` as in that record — while the
exact-key `deduplicate_events` variant keeps both records, because the two
artist strings normalize to different keys. -/
theorem scenarioA_dedup_result :
    Normalize.deduplicate [Inputs.luceroBit, Inputs.luceroVenue] =
        [Inputs.luceroVenue] ∧
      DedupKey.deduplicate_events [Inputs.luceroBitS, Inputs.luceroVenueS] =
        [Inputs.luceroBitS, Inputs.luceroVenueS] := by
  constructor
  · have h1 : Normalize.deduplicate [Inputs.luceroBit, Inputs.luceroVenue] =
        List.mergeSort [Inputs.luceroVenue] Normalize.eventLe := rfl
    rw [h1]
    exact List.mergeSort_of_sorted (by simp)
  · have h2 : DedupKey.deduplicate_events [Inputs.luceroBitS, Inputs.luceroVenueS] =
        List.mergeSort [Inputs.luceroBitS, Inputs.luceroVenueS] DedupKey.keyLe := rfl
    rw [h2]
    exact List.mergeSort_of_sorted (by decide)

namespace Cmp

theorem natCmp_of_lt {a b : Nat} (h : a < b) : natCmp a b = .lt := by
  unfold natCmp
  rw [if_pos h]

theorem natCmp_of_gt {a b : Nat} (h : b < a) : natCmp a b = .gt := by
  unfold natCmp
  rw [if_neg (by omega), if_pos h]

theorem natCmp_of_eq {a b : Nat} (h : a = b) : natCmp a b = .eq := by
  unfold natCmp
  rw [if_neg (by omega), if_neg (by omega)]

theorem natCmp_eq {a b : Nat} (h : natCmp a b = .eq) : a = b := by
  unfold natCmp at h
  split_ifs at h with h1 h2
  omega

theorem natCmp_lt {a b : Nat} (h : natCmp a b = .lt) : a < b := by
  unfold natCmp at h
  split_ifs at h with h1 h2
  exact h1

theorem natCmp_lt_trans {a b c : Nat} (h1 : natCmp a b = .lt)
    (h2 : natCmp b c = .lt) : natCmp a c = .lt :=
  natCmp_of_lt (Nat.lt_trans (natCmp_lt h1) (natCmp_lt h2))

theorem natCmp_swap (a b : Nat) : natCmp a b = (natCmp b a).swap := by
  rcases Nat.lt_trichotomy a b with h | h | h
  · rw [natCmp_of_lt h, natCmp_of_gt h]
    rfl
  · rw [natCmp_of_eq h, natCmp_of_eq h.symm]
    rfl
  · rw [natCmp_of_gt h, natCmp_of_lt h]
    rfl

theorem chCmp_eq {a b : Char} (h : chCmp a b = .eq) : a = b :=
  Char.ext (UInt32.ext (natCmp_eq h))

theorem chCmp_lt_trans {a b c : Char} (h1 : chCmp a b = .lt)
    (h2 : chCmp b c = .lt) : chCmp a c = .lt :=
  natCmp_lt_trans h1 h2

theorem chCmp_swap (a b : Char) : chCmp a b = (chCmp b a).swap :=
  natCmp_swap _ _

theorem chListCmp_eq : ∀ {x y : List Char}, chListCmp x y = .eq → x = y
  | [], [], _ => rfl
  | [], _ :: _, h => by simp [chListCmp] at h
  | _ :: _, [], h => by simp [chListCmp] at h
  | a :: as, b :: bs, h => by
    rw [chListCmp] at h
    cases hc : chCmp a b with
    | lt => rw [hc] at h; simp [Ordering.then] at h
    | gt => rw [hc] at h; simp [Ordering.then] at h
    | eq =>
      rw [hc] at h
      simp only [Ordering.then] at h
      rw [chCmp_eq hc, chListCmp_eq h]

theorem chListCmp_lt_trans :
    ∀ {x y z : List Char}, chListCmp x y = .lt → chListCmp y z = .lt →
      chListCmp x z = .lt
  | [], [], _, h1, _ => by simp [chListCmp] at h1
  | [], _ :: _, [], _, h2 => by simp [chListCmp] at h2
  | [], _ :: _, _ :: _, _, _ => by simp [chListCmp]
  | _ :: _, [], _, h1, _ => by simp [chListCmp] at h1
  | _ :: _, _ :: _, [], _, h2 => by simp [chListCmp] at h2
  | a :: as, b :: bs, c :: cs, h1, h2 => by
    rw [chListCmp] at h1 h2 ⊢
    cases hab : chCmp a b with
    | gt => rw [hab] at h1; simp [Ordering.then] at h1
    | lt =>
      rw [hab] at h1
      cases hbc : chCmp b c with
      | gt => rw [hbc] at h2; simp [Ordering.then] at h2
      | lt => rw [chCmp_lt_trans hab hbc]; rfl
      | eq => rw [← chCmp_eq hbc, hab]; rfl
    | eq =>
      rw [hab] at h1
      simp only [Ordering.then] at h1
      cases hbc : chCmp b c with
      | gt => rw [hbc] at h2; simp [Ordering.then] at h2
      | lt => rw [chCmp_eq hab, hbc]; rfl
      | eq =>
        rw [hbc] at h2
        simp only [Ordering.then] at h2
        rw [chCmp_eq hab, hbc]
        simp only [Ordering.then]
        exact chListCmp_lt_trans h1 h2

theorem chListCmp_swap : ∀ (x y : List Char), chListCmp x y = (chListCmp y x).swap
  | [], [] => rfl
  | [], _ :: _ => rfl
  | _ :: _, [] => rfl
  | a :: as, b :: bs => by
    rw [chListCmp, chListCmp]
    cases hba : chCmp b a with
    | lt => rw [chCmp_swap a b, hba]; rfl
    | gt => rw [chCmp_swap a b, hba]; rfl
    | eq =>
      rw [chCmp_swap a b, hba]
      simp only [Ordering.then, Ordering.swap]
      exact chListCmp_swap as bs

theorem pairCmp_eq {f : α → α → Ordering} {g : β → β → Ordering}
    (hf : ∀ a b, f a b = .eq → a = b) (hg : ∀ a b, g a b = .eq → a = b) :
    ∀ x y, pairCmp f g x y = .eq → x = y := by
  intro x y h
  rw [pairCmp] at h
  cases hfc : f x.1 y.1 with
  | lt => rw [hfc] at h; simp [Ordering.then] at h
  | gt => rw [hfc] at h; simp [Ordering.then] at h
  | eq =>
    rw [hfc] at h
    simp only [Ordering.then] at h
    exact Prod.ext (hf _ _ hfc) (hg _ _ h)

theorem pairCmp_lt_trans {f : α → α → Ordering} {g : β → β → Ordering}
    (hfe : ∀ a b, f a b = .eq → a = b)
    (hfl : ∀ {a b c}, f a b = .lt → f b c = .lt → f a c = .lt)
    (hgl : ∀ {a b c}, g a b = .lt → g b c = .lt → g a c = .lt) :
    ∀ {x y z}, pairCmp f g x y = .lt → pairCmp f g y z = .lt →
      pairCmp f g x z = .lt := by
  intro x y z h1 h2
  rw [pairCmp] at h1 h2 ⊢
  cases hab : f x.1 y.1 with
  | gt => rw [hab] at h1; simp [Ordering.then] at h1
  | lt =>
    cases hbc : f y.1 z.1 with
    | gt => rw [hbc] at h2; simp [Ordering.then] at h2
    | lt => rw [hfl hab hbc]; rfl
    | eq => rw [← hfe _ _ hbc, hab]; rfl
  | eq =>
    rw [hab] at h1
    simp only [Ordering.then] at h1
    cases hbc : f y.1 z.1 with
    | gt => rw [hbc] at h2; simp [Ordering.then] at h2
    | lt => rw [hfe _ _ hab, hbc]; rfl
    | eq =>
      rw [hbc] at h2
      simp only [Ordering.then] at h2
      rw [hfe _ _ hab, hbc]
      simp only [Ordering.then]
      exact hgl h1 h2

theorem pairCmp_swap {f : α → α → Ordering} {g : β → β → Ordering}
    (hf : ∀ a b, f a b = (f b a).swap) (hg : ∀ a b, g a b = (g b a).swap) :
    ∀ x y, pairCmp f g x y = (pairCmp f g y x).swap := by
  intro x y
  rw [pairCmp, pairCmp]
  cases hba : f y.1 x.1 with
  | lt => rw [hf x.1 y.1, hba]; rfl
  | gt => rw [hf x.1 y.1, hba]; rfl
  | eq =>
    rw [hf x.1 y.1, hba]
    simp only [Ordering.then, Ordering.swap]
    exact hg _ _

theorem cmpLe_trans {f : α → α → Ordering}
    (hfe : ∀ a b, f a b = .eq → a = b)
    (hfl : ∀ {a b c}, f a b = .lt → f b c = .lt → f a c = .lt)
    {a b c : α} (h1 : cmpLe f a b = true) (h2 : cmpLe f b c = true) :
    cmpLe f a c = true := by
  rw [cmpLe] at h1 h2 ⊢
  cases hab : f a b with
  | gt => rw [hab] at h1; simp at h1
  | eq => rw [hfe _ _ hab]; exact h2
  | lt =>
    cases hbc : f b c with
    | gt => rw [hbc] at h2; simp at h2
    | eq => rw [← hfe _ _ hbc, hab]
    | lt => rw [hfl hab hbc]

theorem cmpLe_total {f : α → α → Ordering}
    (hsw : ∀ a b, f a b = (f b a).swap) (a b : α) :
    (cmpLe f a b || cmpLe f b a) = true := by
  rw [cmpLe, cmpLe]
  cases hab : f a b with
  | lt => rfl
  | eq => rfl
  | gt =>
    have : f b a = .lt := by
      have h := hsw a b
      rw [hab] at h
      cases hba : f b a <;> rw [hba] at h <;> simp [Ordering.swap] at h ⊢
    rw [this]
    rfl

end Cmp

namespace Normalize

theorem cmp5_eq : ∀ x y, cmp5 x y = .eq → x = y :=
  Cmp.pairCmp_eq (fun _ _ => Cmp.natCmp_eq)
    (Cmp.pairCmp_eq (fun _ _ => Cmp.natCmp_eq)
      (Cmp.pairCmp_eq (fun _ _ => Cmp.natCmp_eq)
        (Cmp.pairCmp_eq (fun _ _ => Cmp.chListCmp_eq)
          (fun _ _ => Cmp.chListCmp_eq))))

theorem cmpVA_lt_trans {x y z : List Char × List Char}
    (h1 : Cmp.pairCmp Cmp.chListCmp Cmp.chListCmp x y = .lt)
    (h2 : Cmp.pairCmp Cmp.chListCmp Cmp.chListCmp y z = .lt) :
    Cmp.pairCmp Cmp.chListCmp Cmp.chListCmp x z = .lt :=
  @Cmp.pairCmp_lt_trans (List Char) (List Char) Cmp.chListCmp Cmp.chListCmp
    (fun _ _ => Cmp.chListCmp_eq)
    (fun {_ _ _} g1 g2 => Cmp.chListCmp_lt_trans g1 g2)
    (fun {_ _ _} g1 g2 => Cmp.chListCmp_lt_trans g1 g2) x y z h1 h2

theorem cmpDVA_lt_trans {x y z : Nat × List Char × List Char}
    (h1 : Cmp.pairCmp Cmp.natCmp (Cmp.pairCmp Cmp.chListCmp Cmp.chListCmp) x y = .lt)
    (h2 : Cmp.pairCmp Cmp.natCmp (Cmp.pairCmp Cmp.chListCmp Cmp.chListCmp) y z = .lt) :
    Cmp.pairCmp Cmp.natCmp (Cmp.pairCmp Cmp.chListCmp Cmp.chListCmp) x z = .lt :=
  @Cmp.pairCmp_lt_trans Nat (List Char × List Char) Cmp.natCmp
    (Cmp.pairCmp Cmp.chListCmp Cmp.chListCmp)
    (fun _ _ => Cmp.natCmp_eq)
    (fun {_ _ _} g1 g2 => Cmp.natCmp_lt_trans g1 g2)
    (fun {_ _ _} g1 g2 => cmpVA_lt_trans g1 g2) x y z h1 h2

theorem cmpMDVA_lt_trans {x y z : Nat × Nat × List Char × List Char}
    (h1 : Cmp.pairCmp Cmp.natCmp (Cmp.pairCmp Cmp.natCmp
      (Cmp.pairCmp Cmp.chListCmp Cmp.chListCmp)) x y = .lt)
    (h2 : Cmp.pairCmp Cmp.natCmp (Cmp.pairCmp Cmp.natCmp
      (Cmp.pairCmp Cmp.chListCmp Cmp.chListCmp)) y z = .lt) :
    Cmp.pairCmp Cmp.natCmp (Cmp.pairCmp Cmp.natCmp
      (Cmp.pairCmp Cmp.chListCmp Cmp.chListCmp)) x z = .lt :=
  @Cmp.pairCmp_lt_trans Nat (Nat × List Char × List Char) Cmp.natCmp
    (Cmp.pairCmp Cmp.natCmp (Cmp.pairCmp Cmp.chListCmp Cmp.chListCmp))
    (fun _ _ => Cmp.natCmp_eq)
    (fun {_ _ _} g1 g2 => Cmp.natCmp_lt_trans g1 g2)
    (fun {_ _ _} g1 g2 => cmpDVA_lt_trans g1 g2) x y z h1 h2

theorem cmp5_lt_trans : ∀ {x y z}, cmp5 x y = .lt → cmp5 y z = .lt →
    cmp5 x z = .lt := by
  intro x y z h1 h2
  exact @Cmp.pairCmp_lt_trans Nat (Nat × Nat × List Char × List Char) Cmp.natCmp
    (Cmp.pairCmp Cmp.natCmp (Cmp.pairCmp Cmp.natCmp
      (Cmp.pairCmp Cmp.chListCmp Cmp.chListCmp)))
    (fun _ _ => Cmp.natCmp_eq)
    (fun {_ _ _} g1 g2 => Cmp.natCmp_lt_trans g1 g2)
    (fun {_ _ _} g1 g2 => cmpMDVA_lt_trans g1 g2) x y z h1 h2

theorem cmp5_swap : ∀ x y, cmp5 x y = (cmp5 y x).swap :=
  Cmp.pairCmp_swap Cmp.natCmp_swap
    (Cmp.pairCmp_swap Cmp.natCmp_swap
      (Cmp.pairCmp_swap Cmp.natCmp_swap
        (Cmp.pairCmp_swap Cmp.chListCmp_swap Cmp.chListCmp_swap)))

theorem eventLe_key (a b : Models.Event) :
    eventLe a b = Cmp.cmpLe cmp5 (key5 a) (key5 b) := rfl

theorem eventLe_trans (a b c : Models.Event) (h1 : eventLe a b = true)
    (h2 : eventLe b c = true) : eventLe a c = true := by
  rw [eventLe_key] at h1 h2 ⊢
  exact Cmp.cmpLe_trans cmp5_eq (fun h1 h2 => cmp5_lt_trans h1 h2) h1 h2

theorem eventLe_total (a b : Models.Event) :
    (eventLe a b || eventLe b a) = true := by
  rw [eventLe_key, eventLe_key]
  exact Cmp.cmpLe_total cmp5_swap _ _

end Normalize

namespace Dict

theorem appendEntry_fresh {k : String} {v : α} :
    ∀ {acc : List (String × List α)}, (∀ p ∈ acc, p.1 ≠ k) →
      appendEntry k v acc = acc ++ [(k, [v])]
  | [], _ => rfl
  | (k', vs) :: t, h => by
    rw [appendEntry, if_neg (h (k', vs) (List.mem_cons_self _ _)),
      appendEntry_fresh (fun p hp => h p (List.mem_cons_of_mem _ hp))]
    rfl

theorem groupBy_fold_nodup (key : α → String) :
    ∀ (l : List α) (acc : List (String × List α)),
      (∀ e ∈ l, ∀ p ∈ acc, p.1 ≠ key e) → (l.map key).Nodup →
      l.foldl (fun acc e => appendEntry (key e) e acc) acc =
        acc ++ l.map (fun e => (key e, [e]))
  | [], acc, _, _ => by simp
  | e :: t, acc, hfresh, hnodup => by
    rw [List.foldl_cons,
      appendEntry_fresh (hfresh e (List.mem_cons_self _ _)),
      groupBy_fold_nodup key t (acc ++ [(key e, [e])])
        (by
          intro e' he' p hp
          rcases List.mem_append.mp hp with hp | hp
          · exact hfresh e' (List.mem_cons_of_mem _ he') p hp
          · have hp' : p = (key e, [e]) := by simpa using hp
            rw [hp']
            intro hcontra
            have : key e ∈ t.map key := List.mem_map.mpr ⟨e', he', hcontra.symm⟩
            exact (List.nodup_cons.mp (by simpa using hnodup)).1 this)
        (by simpa using hnodup.of_cons)]
    simp

theorem groupBy_nodup (key : α → String) (l : List α)
    (h : (l.map key).Nodup) :
    groupBy key l = l.map (fun e => (key e, [e])) := by
  have := groupBy_fold_nodup key l [] (by simp) h
  simpa [groupBy] using this

end Dict

namespace Normalize

theorem flatten_singletons :
    ∀ l : List Models.Event,
      ((l.map (fun e => (group_key e, [e]))).map
        (fun g => clusterGroup g.2)).flatten = l
  | [] => rfl
  | e :: t => by
    have ih := flatten_singletons t
    simp only [List.map_cons, List.flatten_cons]
    rw [ih]
    rfl

theorem dedup_eq_mergeSort {l : List Models.Event}
    (h : (l.map group_key).Nodup) :
    deduplicate l = l.mergeSort eventLe := by
  cases l with
  | nil => simp [deduplicate, List.mergeSort_nil]
  | cons a t =>
    show ((Dict.groupBy group_key (a :: t)).map
      (fun g => clusterGroup g.2)).flatten.mergeSort eventLe = _
    rw [Dict.groupBy_nodup _ _ h, flatten_singletons]

/-- C2 amended: when all `(date, normalized venue)` grouping keys of the
input are distinct — every dedup group a singleton — `deduplicate` reduces
to a deterministic sort and re-running it on its own output changes
nothing.  (The unrestricted fixed-point claim is refuted separately.) -/
theorem dedup_idempotent_of_nodup_group_keys (l : List Models.Event)
    (h : (l.map group_key).Nodup) :
    deduplicate (deduplicate l) = deduplicate l := by
  rw [dedup_eq_mergeSort h]
  have hperm : ((l.mergeSort eventLe).map group_key).Nodup :=
    ((List.mergeSort_perm l eventLe).map group_key).nodup_iff.mpr h
  rw [dedup_eq_mergeSort hperm]
  exact List.mergeSort_of_sorted (List.sorted_mergeSort eventLe_trans eventLe_total l)

/-- Witness for the amended C2 at a concrete two-event input with distinct
grouping keys. -/
theorem dedup_idempotent_witness :
    deduplicate (deduplicate [Inputs.luceroBit, Inputs.gammaEv]) =
      deduplicate [Inputs.luceroBit, Inputs.gammaEv] :=
  dedup_idempotent_of_nodup_group_keys _ (by decide)

/-- C2 counterexample: `deduplicate` is not a fixed point of its own
clustering rule.  On the three-event group `alpha beta`, `gamma`,
`alpha beta gamma (8 PM)` the third event replaces the first cluster's
representative and also matches `gamma`, so the output retains two events
of the same group whose artists match — re-running `deduplicate` merges
them. -/
theorem dedup_not_fixed_point :
    deduplicate (deduplicate
        [Inputs.alphaBeta, Inputs.gammaEv, Inputs.alphaBetaGamma]) ≠
      deduplicate [Inputs.alphaBeta, Inputs.gammaEv, Inputs.alphaBetaGamma] := by
  have h1 : deduplicate [Inputs.alphaBeta, Inputs.gammaEv, Inputs.alphaBetaGamma] =
      List.mergeSort [Inputs.alphaBetaGamma, Inputs.gammaEv] eventLe := rfl
  have hs : List.mergeSort [Inputs.alphaBetaGamma, Inputs.gammaEv] eventLe =
      [Inputs.alphaBetaGamma, Inputs.gammaEv] :=
    List.mergeSort_of_sorted (by decide)
  have h2 : deduplicate [Inputs.alphaBetaGamma, Inputs.gammaEv] =
      List.mergeSort [Inputs.alphaBetaGamma] eventLe := rfl
  rw [h1, hs, h2, List.mergeSort_of_sorted (by simp)]
  decide

end Normalize

namespace Normalize

theorem pick_best_cases (a b : Models.Event) :
    pick_best a b = a ∨ pick_best a b = b := by
  unfold pick_best
  split_ifs
  · exact Or.inl rfl
  · exact Or.inr rfl

theorem updateSeen_mem :
    ∀ {seen : List Models.Event} {x e : Models.Event},
      x ∈ updateSeen e seen → x ∈ seen ∨ x = e := by
  intro seen
  induction seen with
  | nil =>
    intro x e h
    right
    simpa [updateSeen] using h
  | cons r rs ih =>
    intro x e h
    rw [updateSeen] at h
    split_ifs at h with hm
    · rcases List.mem_cons.mp h with hx | hx
      · rcases pick_best_cases r e with hp | hp
        · exact Or.inl (by rw [hx, hp]; exact List.mem_cons_self _ _)
        · exact Or.inr (by rw [hx, hp])
      · exact Or.inl (List.mem_cons_of_mem _ hx)
    · rcases List.mem_cons.mp h with hx | hx
      · exact Or.inl (by rw [hx]; exact List.mem_cons_self _ _)
      · rcases ih hx with hx' | hx'
        · exact Or.inl (List.mem_cons_of_mem _ hx')
        · exact Or.inr hx'

theorem clusterFold_mem :
    ∀ (es seen : List Models.Event) (x : Models.Event),
      x ∈ es.foldl (fun s e => updateSeen e s) seen → x ∈ seen ∨ x ∈ es := by
  intro es
  induction es with
  | nil =>
    intro seen x h
    exact Or.inl (by simpa using h)
  | cons e t ih =>
    intro seen x h
    rw [List.foldl_cons] at h
    rcases ih (updateSeen e seen) x h with h' | h'
    · rcases updateSeen_mem h' with h'' | h''
      · exact Or.inl h''
      · exact Or.inr (by rw [h'']; exact List.mem_cons_self _ _)
    · exact Or.inr (List.mem_cons_of_mem _ h')

theorem clusterGroup_mem {es : List Models.Event} {x : Models.Event}
    (h : x ∈ clusterGroup es) : x ∈ es := by
  match es with
  | [] => simpa [clusterGroup] using h
  | [e] => simpa [clusterGroup] using h
  | e :: f :: t =>
    have h' : x ∈ (e :: f :: t).foldl (fun s e => updateSeen e s) [] := h
    rcases clusterFold_mem _ _ _ h' with h'' | h''
    · simp at h''
    · exact h''

end Normalize

namespace Dict

theorem appendEntry_value_mem {x : α} {k : String} {v : α} :
    ∀ {acc : List (String × List α)},
      (∃ q ∈ appendEntry k v acc, x ∈ q.2) →
      (∃ q ∈ acc, x ∈ q.2) ∨ x = v := by
  intro acc
  induction acc with
  | nil =>
    intro h
    obtain ⟨q, hq, hx⟩ := h
    right
    have : q = (k, [v]) := by simpa [appendEntry] using hq
    rw [this] at hx
    simpa using hx
  | cons p t ih =>
    intro h
    obtain ⟨q, hq, hx⟩ := h
    rw [appendEntry] at hq
    split_ifs at hq with hk
    · rcases List.mem_cons.mp hq with hq' | hq'
      · rw [hq'] at hx
        rcases List.mem_append.mp hx with hx' | hx'
        · exact Or.inl ⟨p, List.mem_cons_self _ _, hx'⟩
        · exact Or.inr (by simpa using hx')
      · exact Or.inl ⟨q, List.mem_cons_of_mem _ hq', hx⟩
    · rcases List.mem_cons.mp hq with hq' | hq'
      · exact Or.inl ⟨q, by rw [hq']; exact List.mem_cons_self _ _, hx⟩
      · rcases ih ⟨q, hq', hx⟩ with h' | h'
        · obtain ⟨q', hq'', hx'⟩ := h'
          exact Or.inl ⟨q', List.mem_cons_of_mem _ hq'', hx'⟩
        · exact Or.inr h'

theorem groupBy_value_mem (key : α → String) :
    ∀ (l : List α) (acc : List (String × List α)) (x : α),
      (∃ q ∈ l.foldl (fun a e => appendEntry (key e) e a) acc, x ∈ q.2) →
      (∃ q ∈ acc, x ∈ q.2) ∨ x ∈ l := by
  intro l
  induction l with
  | nil =>
    intro acc x h
    exact Or.inl (by simpa using h)
  | cons e t ih =>
    intro acc x h
    rw [List.foldl_cons] at h
    rcases ih (appendEntry (key e) e acc) x h with h' | h'
    · rcases appendEntry_value_mem h' with h'' | h''
      · exact Or.inl h''
      · exact Or.inr (by rw [h'']; exact List.mem_cons_self _ _)
    · exact Or.inr (List.mem_cons_of_mem _ h')

end Dict

/-- C3 amended: `deduplicate` never invents events — every output event is
one of the input events — and the tie-break among equal-detail-score
duplicates deterministically keeps the first-encountered event
(`_pick_best` returns its first argument on a tie).  Order-independence of
the output content fails in general, which is refuted separately. -/
theorem dedup_output_subset_and_stable_tie :
    (∀ (l : List Models.Event) (x : Models.Event),
        x ∈ Normalize.deduplicate l → x ∈ l) ∧
      (∀ a b : Models.Event,
        Normalize.detail_score a = Normalize.detail_score b →
          Normalize.pick_best a b = a) := by
  constructor
  · intro l x hx
    cases l with
    | nil => simpa [Normalize.deduplicate] using hx
    | cons a t =>
      have heq : Normalize.deduplicate (a :: t) =
          ((Dict.groupBy Normalize.group_key (a :: t)).map
            (fun g => Normalize.clusterGroup g.2)).flatten.mergeSort
            Normalize.eventLe := rfl
      rw [heq] at hx
      have hx' := List.mem_mergeSort.mp hx
      rw [List.mem_flatten] at hx'
      obtain ⟨bucket, hb, hxb⟩ := hx'
      rw [List.mem_map] at hb
      obtain ⟨q, hq, hbe⟩ := hb
      rw [← hbe] at hxb
      have hx2 : x ∈ q.2 := Normalize.clusterGroup_mem hxb
      rcases Dict.groupBy_value_mem Normalize.group_key (a :: t) [] x
          ⟨q, hq, hx2⟩ with h' | h'
      · simp at h'
      · exact h'
  · intro a b h
    unfold Normalize.pick_best
    rw [if_pos (by omega)]

/-- Witness for the amended C3: the surviving merged event of the
three-event counterexample input is indeed one of its input events. -/
theorem dedup_output_subset_witness :
    Inputs.alphaBetaGamma ∈
      [Inputs.alphaBeta, Inputs.gammaEv, Inputs.alphaBetaGamma] := by
  refine dedup_output_subset_and_stable_tie.1 _ _ ?_
  have h1 : Normalize.deduplicate
      [Inputs.alphaBeta, Inputs.gammaEv, Inputs.alphaBetaGamma] =
      List.mergeSort [Inputs.alphaBetaGamma, Inputs.gammaEv]
        Normalize.eventLe := rfl
  rw [h1]
  exact List.mem_mergeSort.mpr (by decide)

/-- C3 counterexample: permuting the input changes the output as a set —
in the original order the dedup keeps two events, in the permuted order a
single event — so deduplication is not order-independent. -/
theorem dedup_order_dependent :
    [Inputs.alphaBeta, Inputs.gammaEv, Inputs.alphaBetaGamma].Perm
        [Inputs.alphaBeta, Inputs.alphaBetaGamma, Inputs.gammaEv] ∧
      (Normalize.deduplicate
        [Inputs.alphaBeta, Inputs.gammaEv, Inputs.alphaBetaGamma]).length = 2 ∧
      (Normalize.deduplicate
        [Inputs.alphaBeta, Inputs.alphaBetaGamma, Inputs.gammaEv]).length = 1 := by
  refine ⟨by decide, ?_, ?_⟩
  · have h1 : Normalize.deduplicate
        [Inputs.alphaBeta, Inputs.gammaEv, Inputs.alphaBetaGamma] =
        List.mergeSort [Inputs.alphaBetaGamma, Inputs.gammaEv]
          Normalize.eventLe := rfl
    rw [h1, List.length_mergeSort]
    rfl
  · have h2 : Normalize.deduplicate
        [Inputs.alphaBeta, Inputs.alphaBetaGamma, Inputs.gammaEv] =
        List.mergeSort [Inputs.alphaBetaGamma] Normalize.eventLe := rfl
    rw [h2, List.length_mergeSort]
    rfl

namespace Dict

theorem lookup_cons_eq {k : String} {v : β} (t : List (String × β)) :
    List.lookup k ((k, v) :: t) = some v := by
  rw [List.lookup_cons]
  have h : (k == k) = true := beq_self_eq_true k
  rw [h]

theorem lookup_cons_ne {k k' : String} {v : β} (t : List (String × β))
    (h : k' ≠ k) : List.lookup k' ((k, v) :: t) = List.lookup k' t := by
  rw [List.lookup_cons]
  have hb : (k' == k) = false := beq_eq_false_iff_ne.mpr h
  rw [hb]

theorem setKey_lookup (k : String) (v : β) :
    ∀ (d : List (String × β)) (k' : String),
      (setKey k v d).lookup k' = if k' = k then some v else d.lookup k' := by
  intro d
  induction d with
  | nil =>
    intro k'
    show List.lookup k' [(k, v)] = _
    by_cases h : k' = k
    · rw [if_pos h, h]
      exact lookup_cons_eq []
    · rw [if_neg h, lookup_cons_ne _ h]
  | cons p t ih =>
    obtain ⟨pk, pv⟩ := p
    intro k'
    rw [setKey]
    by_cases h1 : pk = k
    · rw [if_pos h1]
      by_cases h2 : k' = k
      · rw [if_pos h2, h2, lookup_cons_eq]
      · rw [if_neg h2, lookup_cons_ne _ h2,
          lookup_cons_ne _ (fun hc => h2 (hc.trans h1))]
    · rw [if_neg h1]
      by_cases h2 : k' = pk
      · have h3 : ¬ k' = k := fun hc => h1 (h2.symm.trans hc)
        rw [if_neg h3, h2, lookup_cons_eq, lookup_cons_eq]
      · rw [lookup_cons_ne _ h2, ih k', lookup_cons_ne _ h2]

theorem setKey_fresh (k : String) (v : β) :
    ∀ {d : List (String × β)}, (∀ p ∈ d, p.1 ≠ k) →
      setKey k v d = d ++ [(k, v)]
  | [], _ => rfl
  | (pk, pv) :: t, h => by
    rw [setKey, if_neg (h (pk, pv) (List.mem_cons_self _ _)),
      setKey_fresh k v (fun p hp => h p (List.mem_cons_of_mem _ hp))]
    rfl

theorem setKey_mem {k : String} {v : β} :
    ∀ {d : List (String × β)} {q : String × β},
      q ∈ setKey k v d → q ∈ d ∨ q = (k, v) := by
  intro d
  induction d with
  | nil =>
    intro q h
    right
    simpa [setKey] using h
  | cons p t ih =>
    intro q h
    rw [setKey] at h
    split_ifs at h with h1
    · rcases List.mem_cons.mp h with h' | h'
      · exact Or.inr h'
      · exact Or.inl (List.mem_cons_of_mem _ h')
    · rcases List.mem_cons.mp h with h' | h'
      · exact Or.inl (by rw [h']; exact List.mem_cons_self _ _)
      · rcases ih h' with h'' | h''
        · exact Or.inl (List.mem_cons_of_mem _ h'')
        · exact Or.inr h''

theorem setKey_length_le (k : String) (v : β) :
    ∀ (d : List (String × β)), (setKey k v d).length ≤ d.length + 1 := by
  intro d
  induction d with
  | nil => simp [setKey]
  | cons p t ih =>
    obtain ⟨pk, pv⟩ := p
    rw [setKey]
    split_ifs with h1
    · simp
    · simpa using Nat.succ_le_succ ih

theorem setKey_length_found (k : String) (v : β) :
    ∀ (d : List (String × β)), d.lookup k ≠ none →
      (setKey k v d).length = d.length := by
  intro d
  induction d with
  | nil => intro h; simp [List.lookup] at h
  | cons p t ih =>
    obtain ⟨pk, pv⟩ := p
    intro h
    rw [setKey]
    split_ifs with h1
    · simp
    · have h' : t.lookup k ≠ none := by
        rwa [lookup_cons_ne _ (fun hc => h1 hc.symm)] at h
      simpa using ih h'

theorem lookup_ne_none_setKey (k k' : String) (v : β)
    (d : List (String × β)) (h : d.lookup k ≠ none) :
    (setKey k' v d).lookup k ≠ none := by
  rw [setKey_lookup]
  split_ifs with h1
  · simp
  · exact h

theorem setKey_keys_found (k : String) (v : β) :
    ∀ (d : List (String × β)), d.lookup k ≠ none →
      (setKey k v d).map Prod.fst = d.map Prod.fst := by
  intro d
  induction d with
  | nil => intro h; simp [List.lookup] at h
  | cons p t ih =>
    obtain ⟨pk, pv⟩ := p
    intro h
    rw [setKey]
    split_ifs with h1
    · simp [h1]
    · have h' : t.lookup k ≠ none := by
        rwa [lookup_cons_ne _ (fun hc => h1 hc.symm)] at h
      simp only [List.map_cons]
      rw [ih h']

theorem setKey_keys_none (k : String) (v : β) :
    ∀ (d : List (String × β)), d.lookup k = none →
      (setKey k v d).map Prod.fst = d.map Prod.fst ++ [k] := by
  intro d
  induction d with
  | nil => intro _; rfl
  | cons p t ih =>
    obtain ⟨pk, pv⟩ := p
    intro h
    by_cases h1 : k = pk
    · subst h1
      rw [lookup_cons_eq] at h
      simp at h
    · rw [lookup_cons_ne _ h1] at h
      rw [setKey, if_neg (fun hc => h1 hc.symm)]
      simp only [List.map_cons]
      rw [ih h]
      rfl

theorem lookup_none_not_mem {k : String} :
    ∀ {d : List (String × β)}, d.lookup k = none → k ∉ d.map Prod.fst := by
  intro d
  induction d with
  | nil => intro _; simp
  | cons p t ih =>
    obtain ⟨pk, pv⟩ := p
    intro h hmem
    by_cases h1 : k = pk
    · subst h1
      rw [lookup_cons_eq] at h
      simp at h
    · rw [lookup_cons_ne _ h1] at h
      rw [List.map_cons] at hmem
      rcases List.mem_cons.mp hmem with h' | h'
      · exact h1 h'
      · exact ih h h'

theorem setKey_keys_nodup (k : String) (v : β) (d : List (String × β))
    (h : (d.map Prod.fst).Nodup) : ((setKey k v d).map Prod.fst).Nodup := by
  cases hl : d.lookup k with
  | some w =>
    rw [setKey_keys_found k v d (by rw [hl]; simp)]
    exact h
  | none =>
    rw [setKey_keys_none k v d hl, List.nodup_append]
    refine ⟨h, List.nodup_singleton _, ?_⟩
    intro a ha hb
    rw [List.mem_singleton.mp hb] at ha
    exact lookup_none_not_mem hl ha

theorem mem_lookup_of_nodup :
    ∀ {d : List (String × β)} {p : String × β},
      (d.map Prod.fst).Nodup → p ∈ d → d.lookup p.1 = some p.2 := by
  intro d
  induction d with
  | nil => intro p _ h; simp at h
  | cons q t ih =>
    obtain ⟨qk, qv⟩ := q
    intro p hn hp
    rcases List.mem_cons.mp hp with h' | h'
    · rw [h']
      exact lookup_cons_eq t
    · have hne : p.1 ≠ qk := by
        intro hc
        have : qk ∈ t.map Prod.fst := List.mem_map.mpr ⟨p, h', hc⟩
        exact (List.nodup_cons.mp (by simpa using hn)).1 this
      rw [lookup_cons_ne _ hne]
      exact ih (List.nodup_cons.mp (by simpa using hn)).2 h'

end Dict

namespace Dict

theorem fold_lookup (kf : α → String) (vf : α → β) :
    ∀ (ds : List α) (acc : List (String × β)) (k : String),
      (ds.foldl (fun res x => setKey (kf x) (vf x) res) acc).lookup k =
        lastWrite k kf vf (acc.lookup k) ds := by
  intro ds
  induction ds with
  | nil => intro acc k; rfl
  | cons x t ih =>
    intro acc k
    rw [List.foldl_cons, ih, lastWrite]
    congr 1
    rw [setKey_lookup]
    by_cases h : kf x = k
    · simp [h]
    · have h2 : ¬ k = kf x := fun hc => h hc.symm
      simp [h, h2]

theorem fold_mem (kf : α → String) (vf : α → β) :
    ∀ (ds : List α) (acc : List (String × β)) (p : String × β),
      p ∈ ds.foldl (fun res x => setKey (kf x) (vf x) res) acc →
        p ∈ acc ∨ ∃ x ∈ ds, p = (kf x, vf x) := by
  intro ds
  induction ds with
  | nil => intro acc p h; exact Or.inl (by simpa using h)
  | cons x t ih =>
    intro acc p h
    rw [List.foldl_cons] at h
    rcases ih _ p h with h' | h'
    · rcases setKey_mem h' with h'' | h''
      · exact Or.inl h''
      · exact Or.inr ⟨x, List.mem_cons_self _ _, h''⟩
    · obtain ⟨y, hy, hp⟩ := h'
      exact Or.inr ⟨y, List.mem_cons_of_mem _ hy, hp⟩

theorem fold_keys_nodup (kf : α → String) (vf : α → β) :
    ∀ (ds : List α) (acc : List (String × β)),
      (acc.map Prod.fst).Nodup →
      ((ds.foldl (fun res x => setKey (kf x) (vf x) res) acc).map Prod.fst).Nodup := by
  intro ds
  induction ds with
  | nil => intro acc h; simpa using h
  | cons x t ih =>
    intro acc h
    rw [List.foldl_cons]
    exact ih _ (setKey_keys_nodup _ _ _ h)

theorem fold_fresh (kf : α → String) (vf : α → β) :
    ∀ (ds : List α) (acc : List (String × β)),
      (ds.map kf).Nodup → (∀ x ∈ ds, ∀ p ∈ acc, p.1 ≠ kf x) →
      ds.foldl (fun res x => setKey (kf x) (vf x) res) acc =
        acc ++ ds.map (fun x => (kf x, vf x)) := by
  intro ds
  induction ds with
  | nil => intro acc _ _; simp
  | cons x t ih =>
    intro acc hnodup hfresh
    rw [List.foldl_cons,
      setKey_fresh _ _ (hfresh x (List.mem_cons_self _ _)),
      ih (acc ++ [(kf x, vf x)]) (by simpa using hnodup.of_cons)
        (by
          intro y hy p hp
          rcases List.mem_append.mp hp with hp | hp
          · exact hfresh y (List.mem_cons_of_mem _ hy) p hp
          · have hp' : p = (kf x, vf x) := by simpa using hp
            rw [hp']
            intro hc
            have : kf x ∈ t.map kf := List.mem_map.mpr ⟨y, hy, hc.symm⟩
            exact (List.nodup_cons.mp (by simpa using hnodup)).1 this)]
    simp

theorem fold_length_le (kf : α → String) (vf : α → β) :
    ∀ (ds : List α) (acc : List (String × β)),
      (ds.foldl (fun res x => setKey (kf x) (vf x) res) acc).length ≤
        acc.length + ds.length := by
  intro ds
  induction ds with
  | nil => intro acc; simp
  | cons x t ih =>
    intro acc
    rw [List.foldl_cons]
    have h1 := ih (setKey (kf x) (vf x) acc)
    have h2 := setKey_length_le (kf x) (vf x) acc
    simp only [List.length_cons]
    omega

theorem fold_lookup_ne_none (kf : α → String) (vf : α → β) :
    ∀ (ds : List α) (acc : List (String × β)) (k : String),
      acc.lookup k ≠ none →
      (ds.foldl (fun res x => setKey (kf x) (vf x) res) acc).lookup k ≠ none := by
  intro ds
  induction ds with
  | nil => intro acc k h; simpa using h
  | cons x t ih =>
    intro acc k h
    rw [List.foldl_cons]
    exact ih _ k (lookup_ne_none_setKey _ _ _ _ h)

theorem fold_length_lt_of_key_mem (kf : α → String) (vf : α → β) :
    ∀ (ds : List α) (acc : List (String × β)) (k : String),
      k ∈ ds.map kf → acc.lookup k ≠ none →
      (ds.foldl (fun res x => setKey (kf x) (vf x) res) acc).length <
        acc.length + ds.length := by
  intro ds
  induction ds with
  | nil => intro acc k hm; simp at hm
  | cons x t ih =>
    intro acc k hm hk
    rw [List.map_cons] at hm
    rw [List.foldl_cons]
    simp only [List.length_cons]
    rcases List.mem_cons.mp hm with h' | h'
    · have hfound : acc.lookup (kf x) ≠ none := by rw [← h']; exact hk
      have hlen : (setKey (kf x) (vf x) acc).length = acc.length :=
        setKey_length_found _ _ _ hfound
      have hle := fold_length_le kf vf t (setKey (kf x) (vf x) acc)
      omega
    · have hk' : (setKey (kf x) (vf x) acc).lookup k ≠ none :=
        lookup_ne_none_setKey _ _ _ _ hk
      have hlt := ih (setKey (kf x) (vf x) acc) k h' hk'
      have hle := setKey_length_le (kf x) (vf x) acc
      omega

theorem fold_length_lt (kf : α → String) (vf : α → β) :
    ∀ (ds : List α) (acc : List (String × β)),
      ¬ (ds.map kf).Nodup →
      (ds.foldl (fun res x => setKey (kf x) (vf x) res) acc).length <
        acc.length + ds.length := by
  intro ds
  induction ds with
  | nil => intro acc h; simp at h
  | cons x t ih =>
    intro acc h
    rw [List.foldl_cons]
    simp only [List.length_cons]
    by_cases hm : kf x ∈ t.map kf
    · have hfound : (setKey (kf x) (vf x) acc).lookup (kf x) ≠ none := by
        rw [setKey_lookup, if_pos rfl]
        simp
      have hlt := fold_length_lt_of_key_mem kf vf t
        (setKey (kf x) (vf x) acc) (kf x) hm hfound
      have hle := setKey_length_le (kf x) (vf x) acc
      omega
    · have hnd : ¬ (t.map kf).Nodup := by
        rw [List.map_cons, List.nodup_cons] at h
        tauto
      have hlt := ih (setKey (kf x) (vf x) acc) hnd
      have hle := setKey_length_le (kf x) (vf x) acc
      omega

end Dict

namespace Dict

theorem appendEntry_lookup (k : String) (v : α) :
    ∀ (acc : List (String × List α)) (k' : String),
      (appendEntry k v acc).lookup k' =
        if k' = k then some ((acc.lookup k).getD [] ++ [v])
        else acc.lookup k' := by
  intro acc
  induction acc with
  | nil =>
    intro k'
    by_cases h : k' = k
    · rw [if_pos h, h]
      show List.lookup k ((k, [v]) :: []) = _
      rw [lookup_cons_eq]
      rfl
    · rw [if_neg h]
      show List.lookup k' ((k, [v]) :: []) = _
      rw [lookup_cons_ne _ h]
  | cons p t ih =>
    obtain ⟨pk, pvs⟩ := p
    intro k'
    rw [appendEntry]
    by_cases h1 : pk = k
    · rw [if_pos h1]
      subst h1
      by_cases h2 : k' = pk
      · subst h2
        rw [if_pos rfl, lookup_cons_eq, lookup_cons_eq]
        rfl
      · rw [if_neg h2, lookup_cons_ne _ h2, lookup_cons_ne _ h2]
    · rw [if_neg h1]
      by_cases h2 : k' = pk
      · subst h2
        rw [if_neg h1, lookup_cons_eq, lookup_cons_eq]
      · rw [lookup_cons_ne _ h2, ih k']
        by_cases h3 : k' = k
        · rw [if_pos h3, if_pos h3, lookup_cons_ne _ (fun hc => h1 hc.symm)]
        · rw [if_neg h3, if_neg h3, lookup_cons_ne _ h2]

theorem groupBy_fold_lookup (key : α → String) :
    ∀ (l : List α) (acc : List (String × List α)) (k : String),
      ((l.foldl (fun a e => appendEntry (key e) e a) acc).lookup k).getD [] =
        (acc.lookup k).getD [] ++ l.filter (fun e => key e == k) := by
  intro l
  induction l with
  | nil => intro acc k; simp
  | cons e t ih =>
    intro acc k
    rw [List.foldl_cons, ih, List.filter_cons, appendEntry_lookup]
    by_cases h : k = key e
    · have hb : (key e == k) = true := beq_iff_eq.mpr h.symm
      rw [if_pos h, hb, ← h]
      simp
    · have hb : (key e == k) = false :=
        beq_eq_false_iff_ne.mpr (fun hc => h hc.symm)
      rw [if_neg h, hb]
      simp

theorem groupBy_lookup_filter (key : α → String) (l : List α) (k : String) :
    ((groupBy key l).lookup k).getD [] = l.filter (fun e => key e == k) := by
  have := groupBy_fold_lookup key l [] k
  simpa [groupBy] using this

theorem lookup_map (f : β → γ) :
    ∀ (d : List (String × β)) (k : String),
      (d.map (fun p => (p.1, f p.2))).lookup k = (d.lookup k).map f := by
  intro d
  induction d with
  | nil => intro k; rfl
  | cons p t ih =>
    obtain ⟨pk, pv⟩ := p
    intro k
    by_cases h : k = pk
    · subst h
      show List.lookup k ((k, f pv) :: _) = _
      rw [lookup_cons_eq, lookup_cons_eq]
      rfl
    · show List.lookup k ((pk, f pv) :: _) = _
      rw [lookup_cons_ne _ h, lookup_cons_ne _ h, ih]

end Dict

namespace Formatter

theorem dayBucket_eq (events : List Scripts.Event) (day : Cal.YMD) :
    dayBucket events day =
      (events.filter (fun e => Cal.iso e.date == Cal.iso day)).mergeSort
        bucketLe := by
  unfold dayBucket Dict.getD
  have hmap := Dict.lookup_map (fun vs : List Scripts.Event => vs.mergeSort bucketLe)
    (Dict.groupBy (fun e : Scripts.Event => Cal.iso e.date) events) (Cal.iso day)
  rw [hmap]
  have hfilter := Dict.groupBy_lookup_filter
    (fun e : Scripts.Event => Cal.iso e.date) events (Cal.iso day)
  cases hl : (Dict.groupBy (fun e : Scripts.Event => Cal.iso e.date)
      events).lookup (Cal.iso day) with
  | none =>
    rw [hl] at hfilter
    simp only [Option.getD_none] at hfilter
    rw [← hfilter]
    simp [List.mergeSort_nil]
  | some vs =>
    rw [hl] at hfilter
    simp only [Option.getD_some] at hfilter
    rw [hfilter]
    rfl

theorem mem_dayBucket {events : List Scripts.Event} {day : Cal.YMD}
    {x : Scripts.Event} :
    x ∈ dayBucket events day ↔
      Cal.iso x.date = Cal.iso day ∧ x ∈ events := by
  rw [dayBucket_eq, List.mem_mergeSort, List.mem_filter]
  constructor
  · rintro ⟨hx, hb⟩
    exact ⟨by simpa using hb, hx⟩
  · rintro ⟨hiso, hx⟩
    exact ⟨hx, by simpa using hiso⟩

end Formatter

namespace Cal

theorem one_le_daysInMonth (y m : Nat) : 1 ≤ daysInMonth y m := by
  unfold daysInMonth
  split_ifs <;> omega

theorem daysInMonth_le_31 (y m : Nat) : daysInMonth y m ≤ 31 := by
  unfold daysInMonth
  split_ifs <;> omega

theorem nextDay_wf_or {t : YMD} (h : wf t) :
    wf (nextDay t) ∨ (nextDay t = ⟨t.y + 1, 1, 1⟩ ∧ t.y = 9999) := by
  unfold wf at h
  unfold nextDay
  split_ifs with h1 h2
  · left
    unfold wf
    simp only
    omega
  · left
    unfold wf
    simp only
    have := one_le_daysInMonth t.y (t.m + 1)
    omega
  · by_cases h3 : t.y + 1 ≤ 9999
    · left
      unfold wf
      simp only
      have := one_le_daysInMonth (t.y + 1) 1
      omega
    · right
      refine ⟨rfl, by omega⟩

theorem ltB_false_of_big {t stop : YMD} (hstop : wf stop)
    (h : 9999 < t.y) : ltB t stop = false := by
  unfold wf at hstop
  unfold ltB
  have h1 : decide (t.y < stop.y) = false := decide_eq_false (by omega)
  have h2 : (t.y == stop.y) = false := beq_eq_false_iff_ne.mpr (by omega)
  rw [h1, h2]
  rfl

end Cal

namespace Cal

theorem dayLoop_wf :
    ∀ (fuel : Nat) (cur stop : YMD), wf stop →
      (wf cur ∨ ltB cur stop = false) →
      ∀ g ∈ dayLoop fuel cur stop, wf g := by
  intro fuel
  induction fuel with
  | zero => intro cur stop _ _ g hg; simp [dayLoop] at hg
  | succ f ih =>
    intro cur stop hstop hcur g hg
    rw [dayLoop] at hg
    split_ifs at hg with hlt
    · rcases hcur with hwf | hfalse
      · rcases List.mem_cons.mp hg with hg' | hg'
        · rw [hg']; exact hwf
        · refine ih (nextDay cur) stop hstop ?_ g hg'
          rcases nextDay_wf_or hwf with h | ⟨heq, hy⟩
          · exact Or.inl h
          · right
            apply ltB_false_of_big hstop
            rw [heq]
            simp only
            omega
      · rw [hfalse] at hlt
        simp at hlt
    · simp at hg

theorem windowDays_wf {s stop : YMD} (hs : wf s) (hstop : wf stop) :
    ∀ g ∈ windowDays s stop, wf g :=
  dayLoop_wf _ s stop hstop (Or.inl hs)

theorem digitChar_mod (n : Nat) : digitChar (n % 10) = digitChar n := by
  unfold digitChar
  have h : n % 10 % 10 = n % 10 := by omega
  rw [h]

theorem digitChar_inj_lt :
    ∀ a < 10, ∀ b < 10, digitChar a = digitChar b → a = b := by decide

theorem digitChar_inj {a b : Nat} (h : digitChar a = digitChar b) :
    a % 10 = b % 10 := by
  apply digitChar_inj_lt _ (by omega) _ (by omega)
  rw [digitChar_mod, digitChar_mod]
  exact h

theorem iso_inj {a b : YMD} (ha : wf a) (hb : wf b) (h : iso a = iso b) :
    a = b := by
  unfold iso at h
  have hdata := congrArg String.data h
  simp only [List.cons.injEq, and_true] at hdata
  obtain ⟨h1, h2, h3, h4, -, h5, h6, -, h7, h8⟩ := hdata
  have hda : a.d ≤ 31 := le_trans ha.2.2.2.2.2 (daysInMonth_le_31 a.y a.m)
  have hdb : b.d ≤ 31 := le_trans hb.2.2.2.2.2 (daysInMonth_le_31 b.y b.m)
  unfold wf at ha hb
  have e1 := digitChar_inj h1
  have e2 := digitChar_inj h2
  have e3 := digitChar_inj h3
  have e4 := digitChar_inj h4
  have e5 := digitChar_inj h5
  have e6 := digitChar_inj h6
  have e7 := digitChar_inj h7
  have e8 := digitChar_inj h8
  obtain ⟨ya, ma, da⟩ := a
  obtain ⟨yb, mb, db⟩ := b
  simp only at e1 e2 e3 e4 e5 e6 e7 e8 ha hb hda hdb
  have hy : ya = yb := by omega
  have hm : ma = mb := by omega
  have hd : da = db := by omega
  rw [hy, hm, hd]

end Cal

/-- C9 amended: when the window's day labels are pairwise distinct (true of
every realistic short window), `format_events_by_date` returns exactly one
bucket per calendar day of `[startDate, stop)`, in ascending day order,
keyed by the day label and holding that day's (possibly empty) sorted
bucket.  The unrestricted exactly-N claim is refuted separately: the
year-free labels collide across multi-year windows. -/
theorem formatter_buckets_of_distinct_labels (events : List Scripts.Event)
    (s e : Cal.YMD) (h : ((Cal.windowDays s e).map Cal.label).Nodup) :
    Formatter.format_events_by_date events s e =
        (Cal.windowDays s e).map
          (fun day => (Cal.label day, Formatter.dayBucket events day)) ∧
      (Formatter.format_events_by_date events s e).length =
        (Cal.windowDays s e).length := by
  have hdef : Formatter.format_events_by_date events s e =
      (Cal.windowDays s e).foldl
        (fun res day => Dict.setKey (Cal.label day)
          (Formatter.dayBucket events day) res) [] := rfl
  have hfold := Dict.fold_fresh Cal.label
    (fun day => Formatter.dayBucket events day) (Cal.windowDays s e) [] h
    (by simp)
  constructor
  · rw [hdef, hfold]
    simp
  · rw [hdef, hfold]
    simp

/-- Witness for the amended C9 at a concrete three-day window. -/
theorem formatter_buckets_witness :
    Formatter.format_events_by_date [Inputs.febShow] ⟨2026, 2, 11⟩ ⟨2026, 2, 14⟩ =
      (Cal.windowDays ⟨2026, 2, 11⟩ ⟨2026, 2, 14⟩).map
        (fun day => (Cal.label day, Formatter.dayBucket [Inputs.febShow] day)) :=
  (formatter_buckets_of_distinct_labels [Inputs.febShow] ⟨2026, 2, 11⟩
    ⟨2026, 2, 14⟩ (by decide)).1

set_option maxRecDepth 100000 in
/-- C9 counterexample: the bucket keys carry no year, so in the 1828-day
window from 2027-03-02 to 2032-03-03 the label `TUESDAY, MARCH 2` occurs
twice and the dict write for the later day overwrites the earlier bucket:
the formatter returns fewer buckets than window days. -/
theorem formatter_bucket_count_claim_false :
    (Formatter.format_events_by_date [] ⟨2027, 3, 2⟩ ⟨2032, 3, 3⟩).length ≠
      (Cal.windowDays ⟨2027, 3, 2⟩ ⟨2032, 3, 3⟩).length := by
  have hdup : ¬ ((Cal.windowDays ⟨2027, 3, 2⟩ ⟨2032, 3, 3⟩).map
      Cal.label).Nodup := by
    have hsplit : Cal.windowDays ⟨2027, 3, 2⟩ ⟨2032, 3, 3⟩ =
        ⟨2027, 3, 2⟩ :: Cal.dayLoop 756647 ⟨2027, 3, 3⟩ ⟨2032, 3, 3⟩ := rfl
    rw [hsplit, List.map_cons, List.nodup_cons]
    intro hcon
    apply hcon.1
    exact List.mem_map.mpr ⟨⟨2032, 3, 2⟩, by decide, rfl⟩
  have hlt := Dict.fold_length_lt Cal.label
    (fun day => Formatter.dayBucket [] day)
    (Cal.windowDays ⟨2027, 3, 2⟩ ⟨2032, 3, 3⟩) [] hdup
  have hz : ([] : List (String × List Scripts.Event)).length = 0 := rfl
  intro he
  have he2 : (List.foldl (fun res x => Dict.setKey (Cal.label x)
      ((fun day => Formatter.dayBucket [] day) x) res) []
      (Cal.windowDays ⟨2027, 3, 2⟩ ⟨2032, 3, 3⟩)).length =
      (Cal.windowDays ⟨2027, 3, 2⟩ ⟨2032, 3, 3⟩).length := he
  omega

/-- C10 amended: an event dated outside the window appears in no bucket of
the returned mapping (silently dropped, no error value exists in the
return type); and when the window's day labels are pairwise distinct, an
in-window event appears in exactly the bucket keyed by its own day's
label.  (With a colliding multi-year window the in-window half fails,
refuted separately.) -/
theorem formatter_event_placement (events : List Scripts.Event)
    (s e : Cal.YMD) (ev : Scripts.Event) (hs : Cal.wf s) (he : Cal.wf e)
    (hev : Cal.wf ev.date) (hmem : ev ∈ events) :
    ((ev.date ∉ Cal.windowDays s e) →
        ∀ p ∈ Formatter.format_events_by_date events s e, ev ∉ p.2) ∧
      (((Cal.windowDays s e).map Cal.label).Nodup →
        ev.date ∈ Cal.windowDays s e →
        ∀ p ∈ Formatter.format_events_by_date events s e,
          (ev ∈ p.2 ↔ p.1 = Cal.label ev.date)) := by
  have hdef : Formatter.format_events_by_date events s e =
      (Cal.windowDays s e).foldl
        (fun res day => Dict.setKey (Cal.label day)
          (Formatter.dayBucket events day) res) [] := rfl
  constructor
  · intro hout p hp hin
    rw [hdef] at hp
    rcases Dict.fold_mem Cal.label (fun day => Formatter.dayBucket events day)
        (Cal.windowDays s e) [] p hp with h' | h'
    · simp at h'
    · obtain ⟨day, hday, hpe⟩ := h'
      rw [hpe] at hin
      have hin' : ev ∈ Formatter.dayBucket events day := hin
      have hiso := (Formatter.mem_dayBucket.mp hin').1
      have hdaywf := Cal.windowDays_wf hs he day hday
      have hde : ev.date = day := Cal.iso_inj hev hdaywf hiso
      exact hout (hde ▸ hday)
  · intro hnodup hin p hp
    have hfold := Dict.fold_fresh Cal.label
      (fun day => Formatter.dayBucket events day) (Cal.windowDays s e) []
      hnodup (by simp)
    rw [hdef, hfold] at hp
    simp only [List.nil_append] at hp
    rw [List.mem_map] at hp
    obtain ⟨day, hday, hpe⟩ := hp
    have hp1 : p.1 = Cal.label day := by rw [← hpe]
    have hp2 : p.2 = Formatter.dayBucket events day := by rw [← hpe]
    rw [hp1, hp2]
    constructor
    · intro hin2
      have hiso := (Formatter.mem_dayBucket.mp hin2).1
      have hdaywf := Cal.windowDays_wf hs he day hday
      have hde : ev.date = day := Cal.iso_inj hev hdaywf hiso
      rw [hde]
    · intro hlab
      have hde : day = ev.date :=
        List.inj_on_of_nodup_map hnodup hday hin hlab
      rw [hde]
      exact Formatter.mem_dayBucket.mpr ⟨rfl, hmem⟩

/-- Witness for the amended C10 at a concrete three-day window with one
in-window and one out-of-window event. -/
theorem formatter_event_placement_witness :
    (∀ p ∈ Formatter.format_events_by_date [Inputs.febShow, Inputs.marchShow]
        ⟨2026, 2, 11⟩ ⟨2026, 2, 14⟩, Inputs.marchShow ∉ p.2) ∧
      (∀ p ∈ Formatter.format_events_by_date [Inputs.febShow, Inputs.marchShow]
        ⟨2026, 2, 11⟩ ⟨2026, 2, 14⟩,
        (Inputs.febShow ∈ p.2 ↔ p.1 = Cal.label ⟨2026, 2, 12⟩)) := by
  constructor
  · exact (formatter_event_placement _ _ _ _ (by decide) (by decide)
      (by decide) (by decide)).1 (by decide)
  · exact (formatter_event_placement _ _ _ _ (by decide) (by decide)
      (by decide) (by decide)).2 (by decide) (by decide)

set_option maxRecDepth 100000 in
/-- C10 counterexample: in the colliding window 2027-03-02 .. 2032-03-03,
the event on 2027-03-02 is dated inside the window yet appears in no
bucket at all — the 2032-03-02 write overwrote its bucket under the shared
label `TUESDAY, MARCH 2`. -/
theorem formatter_drops_overwritten_day :
    Inputs.collisionShow.date ∈ Cal.windowDays ⟨2027, 3, 2⟩ ⟨2032, 3, 3⟩ ∧
      ∀ p ∈ Formatter.format_events_by_date [Inputs.collisionShow]
          ⟨2027, 3, 2⟩ ⟨2032, 3, 3⟩, Inputs.collisionShow ∉ p.2 := by
  constructor
  · decide
  · intro p hp hin
    have hdef : Formatter.format_events_by_date [Inputs.collisionShow]
        ⟨2027, 3, 2⟩ ⟨2032, 3, 3⟩ =
        (Cal.windowDays ⟨2027, 3, 2⟩ ⟨2032, 3, 3⟩).foldl
          (fun res day => Dict.setKey (Cal.label day)
            (Formatter.dayBucket [Inputs.collisionShow] day) res) [] := rfl
    rw [hdef] at hp
    rcases Dict.fold_mem Cal.label
        (fun day => Formatter.dayBucket [Inputs.collisionShow] day)
        (Cal.windowDays ⟨2027, 3, 2⟩ ⟨2032, 3, 3⟩) [] p hp with h' | h'
    · simp at h'
    · obtain ⟨day, hday, hpe⟩ := h'
      have hp1 : p.1 = Cal.label day := by rw [hpe]
      have hp2 : p.2 = Formatter.dayBucket [Inputs.collisionShow] day := by
        rw [hpe]
      have hin' : Inputs.collisionShow ∈
          Formatter.dayBucket [Inputs.collisionShow] day := by
        rw [← hp2]
        exact hin
      have hiso := (Formatter.mem_dayBucket.mp hin').1
      have hdaywf := Cal.windowDays_wf (by decide) (by decide) day hday
      have hde : Inputs.collisionShow.date = day :=
        Cal.iso_inj (by decide) hdaywf hiso
      have hkeys : (((Cal.windowDays ⟨2027, 3, 2⟩ ⟨2032, 3, 3⟩).foldl
          (fun res day => Dict.setKey (Cal.label day)
            (Formatter.dayBucket [Inputs.collisionShow] day) res)
          []).map Prod.fst).Nodup :=
        Dict.fold_keys_nodup _ _ _ [] (by simp)
      have hlook := Dict.mem_lookup_of_nodup hkeys hp
      have hlast := Dict.fold_lookup Cal.label
        (fun day => Formatter.dayBucket [Inputs.collisionShow] day)
        (Cal.windowDays ⟨2027, 3, 2⟩ ⟨2032, 3, 3⟩) [] p.1
      rw [hlook] at hlast
      have hkey : p.1 = Cal.label (⟨2027, 3, 2⟩ : Cal.YMD) := by
        rw [hp1, ← hde]
        rfl
      rw [hkey] at hlast
      have heval : Dict.lastWrite (Cal.label ⟨2027, 3, 2⟩) Cal.label
          (fun day => Formatter.dayBucket [Inputs.collisionShow] day)
          (List.lookup (Cal.label ⟨2027, 3, 2⟩)
            ([] : List (String × List Scripts.Event)))
          (Cal.windowDays ⟨2027, 3, 2⟩ ⟨2032, 3, 3⟩) = some [] := by decide
      rw [heval] at hlast
      have hp2nil : p.2 = [] := by injection hlast
      rw [hp2nil] at hin
      simp at hin
